import Mathlib

/-!
# Verification of the tornado_restful routing layer

Shallow embedding of `tornado_restful/api_config.py` and
`tornado_restful/apiserving.py`.  Path strings are modelled as `List Char`,
HTTP verbs and content types as `String`.  The Python regular-expression
scans used by the source (`re.findall` with a look-behind, `re.sub`, and
`re.match('^{[^{}]+}$', ...)`) are embedded as explicit character scanners.
-/

/-- The character `{` (kept as a named constant so that brace characters
never appear literally in code). -/
def lbrace : Char := Char.ofNat 123

/-- The character `}`. -/
def rbrace : Char := Char.ofNat 125

/-- Python's `\w` character class restricted to ASCII: `[A-Za-z0-9_]`.
All identifiers appearing in the routes of this repository are ASCII. -/
def isW (c : Char) : Bool := c.isAlpha || c.isDigit || c == '_'

/-- Prepend a character to the first group of a group list (used by the
scanners below to build up the current match). -/
def consHead (c : Char) : List (List Char) → List (List Char)
  | [] => [[c]]
  | r :: rs => (c :: r) :: rs

/-- State of the look-behind scanner: `idle` (previous character is not the
trigger), `armed` (previous character is the trigger), `running` (inside a
`\w+` match). -/
inductive ScanSt
  | idle
  | armed
  | running
deriving DecidableEq

/-- Embedding of Python `re.findall(r"(?<=T)\w+", s)` for a non-word trigger
character `T` (the source uses `T = '/'` and `T` = the opening brace):
collect every maximal run of word characters immediately preceded by `T`.
The scanner is faithful to the regex engine: after a match it resumes right
after the run, whose last character is a word character and hence not the
trigger. -/
def reScan (t : Char) : ScanSt → List Char → List (List Char)
  | .running, [] => [[]]
  | _, [] => []
  | .idle, c :: rest => reScan t (if c == t then .armed else .idle) rest
  | .armed, c :: rest =>
      if isW c then consHead c (reScan t .running rest)
      else reScan t (if c == t then .armed else .idle) rest
  | .running, c :: rest =>
      if isW c then consHead c (reScan t .running rest)
      else [] :: reScan t (if c == t then .armed else .idle) rest

/-- `re.findall(r"(?<=T)\w+", s)` on a whole string (no previous character
at the start, so the scanner starts `idle`). -/
def reFindallAfter (t : Char) (s : List Char) : List (List Char) :=
  reScan t .idle s

/-- Python `s.split('/')` (keeps empty fragments, `''.split('/') == ['']`). -/
def splitOnSlash : List Char → List (List Char)
  | [] => [[]]
  | c :: rest =>
    if c == '/' then [] :: splitOnSlash rest
    else consHead c (splitOnSlash rest)

/-- Helper for `re.match('^{[^{}]+}$', part)`: after the opening brace,
accept a non-empty run of non-brace characters followed by a final closing
brace.  `seen` records whether at least one interior character was read. -/
def braceTail : Bool → List Char → Bool
  | _, [] => false
  | seen, c :: rest =>
    if c == rbrace then seen && rest == []
    else if c == lbrace then false
    else braceTail true rest

/-- Embedding of `re.match('^{[^{}]+}$', part) is not None`. -/
def bracePat : List Char → Bool
  | c :: rest => c == lbrace && braceTail false rest
  | [] => false

/-- The guard `part and '{' in part and '}' in part` of
`_MethodInfo.get_path`: only segments containing BOTH braces are checked. -/
def needsCheck (part : List Char) : Bool :=
  !(part == []) && part.contains lbrace && part.contains rbrace

/-- `_ApiInfo`: the per-class routing information (API name and version from
the shared common info, plus the optional class base path).  Fields not read
by the dispatch logic (resource name, auth level) are omitted. -/
structure ApiInfo where
  name : List Char
  version : List Char
  path : Option (List Char)
deriving DecidableEq

/-- `_MethodInfo`: per-method routing metadata. -/
structure MethodInfo where
  name : String
  path : List Char
  http_method : String
  content_type : String
deriving DecidableEq

/-- `_MethodInfo.get_path`: strip one leading `/` from the method path,
normalize the class path to end with `/` (empty when unset or falsy),
concatenate `/{api_name}/{api_version}/{api_path}{path}`, then validate
every `/`-separated segment that contains both braces against
`^{[^{}]+}$`, raising `ApiConfigurationError` (modelled as `.error` carrying
the offending segment and the full path) on the first failure. -/
def get_path (api : ApiInfo) (mi : MethodInfo) : Except (List Char × List Char) (List Char) :=
  let path1 : List Char :=
    if mi.path.head? == some '/' then mi.path.tail else mi.path
  let api_path : List Char :=
    match api.path with
    | none => []
    | some p => if p == [] then [] else if p.getLast? == some '/' then p else p ++ ['/']
  let full : List Char := '/' :: (api.name ++ '/' :: (api.version ++ '/' :: (api_path ++ path1)))
  match (splitOnSlash full).find? (fun part => needsCheck part && !bracePat part) with
  | some part => .error (part, full)
  | none => .ok full

/-- A value returned by a handler method, as inspected by `_handle`:
`isinstance(response, dict)`, `isinstance(response, list)`, anything else. -/
inductive PyRet
  | dict (fields : List (List Char × List Char))
  | list (elems : List (List Char))
  | str (s : List Char)
deriving DecidableEq

/-- A body written to the response: either the dict returned by the handler
or the `{'items': response}` wrapper around a returned list. -/
inductive Written
  | obj (fields : List (List Char × List Char))
  | itemsWrap (elems : List (List Char))
deriving DecidableEq

/-- An error terminating `_handle`: a `tornado.web.HTTPError` (status code
and optional log message) or an uncaught `ApiConfigurationError` escaping
from `get_path` at request time. -/
inductive Err
  | httpError (code : Nat) (msg : Option String)
  | configError (part full : List Char)
deriving DecidableEq

/-- Observable outcome of `_handle`: the list of handler invocations (index
into the class's function list, with the extracted positional arguments),
the list of response bodies written, and the terminating error if one was
raised.  `invoked = []`, `writes = []`, `error = none` is the silent
fall-through of the dispatch loop. -/
structure HandleOut where
  invoked : List (Nat × List (List Char))
  writes : List Written
  error : Option Err
deriving DecidableEq

/-- `RestResource._find_params_value_of_url`: every `/`-fragment of the url
that is neither one of the fixed endpoint tokens nor empty, in order. -/
def find_params_value_of_url (services : List (List Char)) (url : List Char) :
    List (List Char) :=
  (splitOnSlash url).filter (fun item => !(decide (item ∈ services)) && !(item == []))

/-- The `for func in resources_functions` loop of `RestResource._handle`.
Each candidate whose verb differs from the request verb, whose fixed
endpoint tokens are not all present among the request path fragments, or
whose placeholder-plus-token count differs from the number of non-empty
path fragments, is skipped.  A surviving POST/PUT candidate with JSON
content type first parses the body (`bodyOk = false` aborts with
HTTP 400 "Invalid JSON").  The handler is then invoked with the extracted
positional values and its return value is normalized; note the loop has no
`break`, so after a successful write it continues with the remaining
candidates. -/
def handleLoop (api : ApiInfo) (verb : String) (pathParts : List (List Char))
    (eps : List (List Char)) (reqPath : List Char) (bodyOk : Bool)
    (handler : Nat → List (List Char) → PyRet) :
    List (Nat × MethodInfo) → HandleOut
  | [] => ⟨[], [], none⟩
  | (i, mi) :: rest =>
    if mi.http_method ≠ verb then
      handleLoop api verb pathParts eps reqPath bodyOk handler rest
    else
      match get_path api mi with
      | .error e => ⟨[], [], some (.configError e.1 e.2)⟩
      | .ok cp =>
        let endpoint := reFindallAfter '/' cp
        let endpointFromRequest := endpoint.filter (fun x => decide (x ∈ pathParts))
        if endpoint ≠ endpointFromRequest then
          handleLoop api verb pathParts eps reqPath bodyOk handler rest
        else
          let endpointParams := reFindallAfter lbrace cp
          if endpointParams.length + endpoint.length ≠ eps.length then
            handleLoop api verb pathParts eps reqPath bodyOk handler rest
          else
            let proceed : HandleOut :=
              let paramsValues := find_params_value_of_url endpoint reqPath
              match handler i paramsValues with
              | .dict f =>
                let o := handleLoop api verb pathParts eps reqPath bodyOk handler rest
                ⟨(i, paramsValues) :: o.invoked, .obj f :: o.writes, o.error⟩
              | .list l =>
                let o := handleLoop api verb pathParts eps reqPath bodyOk handler rest
                ⟨(i, paramsValues) :: o.invoked, .itemsWrap l :: o.writes, o.error⟩
              | .str _ =>
                ⟨[(i, find_params_value_of_url endpoint reqPath)], [],
                  some (.httpError 500 (some "Response is not a json document"))⟩
            if (mi.http_method = "POST" ∨ mi.http_method = "PUT") ∧
                mi.content_type = "application/json" then
              if bodyOk then proceed
              else ⟨[], [], some (.httpError 400 (some "Invalid JSON"))⟩
            else proceed

/-- `RestResource._handle`: split the request path, compute the set of
verbs of the class's functions, fail with HTTP 405 when the request verb is
not among them, and otherwise run the candidate loop. -/
def handle (api : ApiInfo) (funcs : List MethodInfo) (verb : String)
    (reqPath : List Char) (bodyOk : Bool)
    (handler : Nat → List (List Char) → PyRet) : HandleOut :=
  let pathParts := splitOnSlash reqPath
  let eps := pathParts.filter (fun x => !(x == []))
  if verb ∈ funcs.map (fun f => f.http_method) then
    handleLoop api verb pathParts eps reqPath bodyOk handler funcs.enum
  else ⟨[], [], some (.httpError 405 none)⟩

/-- State of the `re.sub(r"(?<={)\w+}", ".*", path)` scanner: inside
`norm armed`, `armed` records whether the previous character was an opening
brace; `skipping` deletes the remainder of a word run whose end was already
replaced (together with the closing brace) by `.*`. -/
inductive SubSt
  | norm (armed : Bool)
  | skipping
deriving DecidableEq

/-- Embedding of `re.sub(r"(?<={)\w+}", ".*", path)`: every maximal word
run that is immediately preceded by an opening brace and immediately
followed by a closing brace is replaced, together with that closing brace,
by `.*` (the preceding opening brace is left in place, exactly as in the
source, and removed afterwards by `.replace("{", "")`). -/
def subPhGo : SubSt → List Char → List Char
  | _, [] => []
  | .skipping, c :: rest =>
    if isW c then subPhGo .skipping rest
    else subPhGo (.norm (c == lbrace)) rest
  | .norm armed, c :: rest =>
    if armed && isW c then
      if (rest.dropWhile isW).head? == some rbrace then
        '.' :: '*' :: subPhGo .skipping rest
      else c :: subPhGo (.norm false) rest
    else c :: subPhGo (.norm (c == lbrace)) rest

/-- State of the `re.sub(r"(?<=<)\w+", "", s)` scanner. -/
inductive LtSt
  | lnorm (armed : Bool)
  | ldel
deriving DecidableEq

/-- Embedding of `re.sub(r"(?<=<)\w+", "", s)`: delete every maximal word
run immediately preceded by `<`. -/
def subLtGo : LtSt → List Char → List Char
  | _, [] => []
  | .ldel, c :: rest =>
    if isW c then subLtGo .ldel rest
    else c :: subLtGo (.lnorm (c == '<')) rest
  | .lnorm armed, c :: rest =>
    if armed && isW c then subLtGo .ldel rest
    else c :: subLtGo (.lnorm (c == '<')) rest

/-- `RestService._rest_handler_to_tornado_handler`, pattern part:
`re.sub(r"(?<={)\w+}", ".*", path).replace("{", "")`, then
`re.sub(r"(?<=<)\w+", "", s)` followed by removal of the characters
`<`, `>`, `&`, `?`. -/
def toPattern (path : List Char) : List Char :=
  let s := (subPhGo (.norm false) path).filter (fun c => !(c == lbrace))
  (subLtGo (.lnorm false) s).filter
    (fun c => !(c == '<' || c == '>' || c == '&' || c == '?'))

/-- Modelled from the spec: the external HTTP listener (§6) matches a route
pattern against a request path as an anchored regular expression.  The
patterns produced by `toPattern` contain only literal characters and the
wildcard `.*`, so regular-expression matching is embedded for exactly that
fragment: `.*` matches any (possibly empty) sequence of characters —
including `/` — and `.` matches any single character.  The fuel argument
only bounds the recursion; `pat.length + s.length + 1` always suffices
because every recursive call shrinks `pat.length + s.length`. -/
def reMatchFuel : Nat → List Char → List Char → Bool
  | 0, _, _ => false
  | _ + 1, [], s => s == []
  | fuel + 1, '.' :: '*' :: ps, s =>
    reMatchFuel fuel ps s ||
      (match s with
       | [] => false
       | _ :: s2 => reMatchFuel fuel ('.' :: '*' :: ps) s2)
  | fuel + 1, '.' :: ps, _ :: s2 => reMatchFuel fuel ps s2
  | fuel + 1, p :: ps, c :: s2 => p == c && reMatchFuel fuel ps s2
  | _ + 1, _ :: _, [] => false

/-- Anchored match of a generated listener pattern against a request path. -/
def reMatch (pat s : List Char) : Bool :=
  reMatchFuel (pat.length + s.length + 1) pat s

/-- A handler class, modelled as its attribute dictionary: each member is a
class attribute name paired with the `method_info` carried by the function
bound under that name (`none` for undecorated members such as `get`,
`post`, ...). -/
structure HandlerClass where
  attrs : List (String × Option MethodInfo)

/-- Lexicographic code-point comparison of two character lists: exactly
how Python compares the attribute-name strings when `inspect.getmembers`
sorts the members of a class. -/
def charLeB : List Char → List Char → Bool
  | [], _ => true
  | _ :: _, [] => false
  | a :: as, b :: bs =>
    if a.toNat < b.toNat then true
    else if b.toNat < a.toNat then false
    else charLeB as bs

/-- The comparison used by `inspect.getmembers`, which returns the class
members sorted by attribute name. -/
def attrLe (a b : String × Option MethodInfo) : Prop :=
  charLeB a.1.toList b.1.toList = true

instance : DecidableRel attrLe := fun a b =>
  inferInstanceAs (Decidable (charLeB a.1.toList b.1.toList = true))

instance : IsTotal (String × Option MethodInfo) attrLe := by
  constructor
  intro u v
  suffices h : ∀ x y : List Char, charLeB x y = true ∨ charLeB y x = true from
    h u.1.toList v.1.toList
  intro x
  induction x with
  | nil => intro y; exact Or.inl rfl
  | cons a as ih =>
    intro y
    cases y with
    | nil => exact Or.inr rfl
    | cons b bs =>
      by_cases h1 : a.toNat < b.toNat
      · left
        simp [charLeB, h1]
      · by_cases h2 : b.toNat < a.toNat
        · right
          simp [charLeB, h2]
        · rcases ih bs with h | h
          · left
            simp [charLeB, h1, h2, h]
          · right
            simp [charLeB, h1, h2, h]

instance : IsTrans (String × Option MethodInfo) attrLe := by
  constructor
  intro a b c
  suffices h : ∀ x y z : List Char, charLeB x y = true → charLeB y z = true →
      charLeB x z = true from fun h1 h2 => h _ _ _ h1 h2
  intro x
  induction x with
  | nil => intro y z _ _; rfl
  | cons a as ih =>
    intro y z h1 h2
    cases y with
    | nil => simp [charLeB] at h1
    | cons b bs =>
      cases z with
      | nil => simp [charLeB] at h2
      | cons c cs =>
        by_cases hab : a.toNat < b.toNat
        · by_cases hbc : b.toNat < c.toNat
          · simp [charLeB, Nat.lt_trans hab hbc]
          · by_cases hcb : c.toNat < b.toNat
            · simp [charLeB, hbc, hcb] at h2
            · have hbceq : b.toNat = c.toNat := Nat.le_antisymm (Nat.not_lt.mp hcb) (Nat.not_lt.mp hbc)
              simp [charLeB, hbceq ▸ hab]
        · by_cases hba : b.toNat < a.toNat
          · simp [charLeB, hab, hba] at h1
          · have habeq : a.toNat = b.toNat := Nat.le_antisymm (Nat.not_lt.mp hba) (Nat.not_lt.mp hab)
            have h1b : charLeB as bs = true := by simpa [charLeB, hab, hba] using h1
            by_cases hbc : b.toNat < c.toNat
            · simp [charLeB, habeq.symm ▸ hbc]
            · by_cases hcb : c.toNat < b.toNat
              · simp [charLeB, hbc, hcb] at h2
              · have hbceq : b.toNat = c.toNat := Nat.le_antisymm (Nat.not_lt.mp hcb) (Nat.not_lt.mp hbc)
                have h2b : charLeB bs cs = true := by simpa [charLeB, hbc, hcb] using h2
                have hac : ¬ a.toNat < c.toNat := by
                  rw [habeq, hbceq]
                  exact Nat.lt_irrefl _
                have hca : ¬ c.toNat < a.toNat := by
                  rw [habeq, hbceq]
                  exact Nat.lt_irrefl _
                simp [charLeB, hac, hca, ih bs cs h1b h2b]

/-- `RestResource.get_resources_functions`: `inspect.getmembers` enumerates
the class members sorted by attribute name; the list comprehension keeps
exactly those carrying a `method_info` attribute. -/
def get_resources_functions (cls : HandlerClass) : List MethodInfo :=
  (List.insertionSort attrLe cls.attrs).filterMap (fun m => m.2)

/-- `RestResource.get_rest_resources_paths`: the compiled path of every
decorated function, in enumeration order. -/
def get_rest_resources_paths (api : ApiInfo) (cls : HandlerClass) :
    List (Except (List Char × List Char) (List Char)) :=
  (get_resources_functions cls).map (fun mi => get_path api mi)

/-- `api_config.method(...)`/`apiserving_method_decorator`: build the
`_MethodInfo` attached to a decorated method.  `name` and `path` default to
the Python method's own `__name__`; `http_method` defaults to `'POST'` and
`content_type` to `'application/json'`; the Python `or` also maps an empty
string to the default.  (The decorator additionally sets the wrapper's
`__name__` to `method_info.name`, which does not change the attribute name
the wrapper is bound under in the class dictionary.) -/
def methodDecoratorInfo (pyName : String) (name path httpMethod contentType : Option String) :
    MethodInfo :=
  { name := match name with | none => pyName | some s => if s = "" then pyName else s
    path := (match path with | none => pyName | some s => if s = "" then pyName else s).toList
    http_method := match httpMethod with | none => "POST" | some s => if s = "" then "POST" else s
    content_type := match contentType with
      | none => "application/json"
      | some s => if s = "" then "application/json" else s }

/-- A path-template segment: a literal segment or a `{name}` placeholder. -/
inductive SegT
  | lit (s : List Char)
  | par (p : List Char)
deriving DecidableEq

/-- The raw text of a template segment. -/
def segStr : SegT → List Char
  | .lit s => s
  | .par p => lbrace :: (p ++ [rbrace])

/-- Well-formedness of a template segment: non-empty and made of word
characters only (for a placeholder, its name). -/
def WFseg : SegT → Prop
  | .lit s => s ≠ [] ∧ ∀ c ∈ s, isW c
  | .par p => p ≠ [] ∧ ∀ c ∈ p, isW c

/-- A non-empty list of word characters (a simple path segment). -/
def simpleW (s : List Char) : Prop := s ≠ [] ∧ ∀ c ∈ s, isW c

/-- Join segments into an absolute path: `pathOfSegs [a, b] = "/a/b"`. -/
def pathOfSegs (segs : List (List Char)) : List Char :=
  segs.foldr (fun s acc => '/' :: (s ++ acc)) []

/-- Render a template as the relative path string written in a `@method`
decorator: segments joined by `/` with no leading slash. -/
def renderTmpl : List SegT → List Char
  | [] => []
  | [t] => segStr t
  | t :: ts => segStr t ++ '/' :: renderTmpl ts

/-- The literal segments of a template, in order. -/
def litsOf (tl : List SegT) : List (List Char) :=
  tl.filterMap (fun t => match t with | .lit s => some s | .par _ => none)

/-- The placeholder names of a template, in order. -/
def parsOf (tl : List SegT) : List (List Char) :=
  tl.filterMap (fun t => match t with | .lit _ => none | .par p => some p)

/-- Substitute concrete values for the placeholders of a template, in
left-to-right order. -/
def substSegs : List SegT → List (List Char) → List (List Char)
  | [], _ => []
  | .lit s :: ts, vs => s :: substSegs ts vs
  | .par _ :: ts, v :: vs => v :: substSegs ts vs
  | .par _ :: _, [] => []

/-- The class-path segment list: one segment when a class path is set. -/
def cpSegs (api : ApiInfo) : List SegT :=
  match api.path with
  | none => []
  | some c => [.lit c]

/-- The fixed endpoint tokens of a compiled path built from `api` and a
template: API name, version, optional class path, then the template's
literal segments. -/
def fixedTokens (api : ApiInfo) (tmpl : List SegT) : List (List Char) :=
  api.name :: api.version :: litsOf (cpSegs api ++ tmpl)

/-- The request path obtained by substituting `vals` for the placeholders
of the template compiled against `api`. -/
def requestPath (api : ApiInfo) (tmpl : List SegT) (vals : List (List Char)) : List Char :=
  pathOfSegs (api.name :: api.version :: substSegs (cpSegs api ++ tmpl) vals)

/-- A method descriptor whose raw path is the rendered template. -/
def mkMi (tmpl : List SegT) (verb ct : String) : MethodInfo :=
  ⟨"m", renderTmpl tmpl, verb, ct⟩

/-- Spec-side definition of the Compiled Path, following the spec's words:
the concatenation `/{api_name}/{api_version}/{api_path}{method_path}`,
where `api_path` is the class path normalized to end with `/` (or the empty
string when the class path is unset — the source's falsy test, under which
an empty class path also counts as unset), and `method_path` is the
method's path template with any single leading `/` stripped. -/
def specCompiledPath (api : ApiInfo) (mi : MethodInfo) : List Char :=
  let api_path : List Char :=
    match api.path with
    | none => []
    | some p =>
      if p = [] then []
      else if p.getLast? = some '/' then p else p ++ ['/']
  let method_path : List Char :=
    if mi.path.head? = some '/' then mi.path.tail else mi.path
  ('/' :: api.name) ++ ('/' :: api.version) ++ ('/' :: api_path) ++ method_path

/-- Spec-side well-formedness of a compiled-path segment, written
independently of the scanner: a segment is accepted by the validation of
`get_path` iff it is empty, misses one of the two braces, or decomposes as
a single brace pair spanning the whole segment with a non-empty brace-free
interior. -/
def ValidatedSegment (part : List Char) : Prop :=
  part = [] ∨ lbrace ∉ part ∨ rbrace ∉ part ∨
    ∃ mid, part = lbrace :: (mid ++ [rbrace]) ∧ mid ≠ [] ∧
      ∀ c ∈ mid, c ≠ lbrace ∧ c ≠ rbrace

/-- Prepend a whole segment, character by character, to the first group of
a group list (helper for reasoning about the scanners). -/
def consMany (s : List Char) (l : List (List Char)) : List (List Char) :=
  s.foldr consHead l

/-- The full segment list of the compiled path of a template: API name,
API version, optional class path, then the template. -/
def allT (api : ApiInfo) (tmpl : List SegT) : List SegT :=
  .lit api.name :: .lit api.version :: (cpSegs api ++ tmpl)

/-- The per-segment effect of `toPattern` on a well-formed compiled path:
literal segments are preserved verbatim, placeholder segments become the
wildcard `.*`. -/
def patSeg : SegT → List Char
  | .lit s => s
  | .par _ => ['.', '*']

/-- The API of the demo application: `api(name='atl', version='v1')` with
class path `'epg'`. -/
def demoApi : ApiInfo := ⟨"atl".toList, "v1".toList, some "epg".toList⟩

/-- The template of the demo method `path='check/{check_id}/app/{id}'`. -/
def demoTmpl : List SegT :=
  [.lit "check".toList, .par "check_id".toList, .lit "app".toList, .par "id".toList]

/-- The demo method descriptor (GET, JSON content type). -/
def demoMi : MethodInfo := mkMi demoTmpl "GET" "application/json"

/-- The demo handler: returns `{'hello': a, 'world': b}`. -/
def demoHandler : Nat → List (List Char) → PyRet :=
  fun _ ps => .dict [("hello".toList, ps.headD []), ("world".toList, (ps.drop 1).headD [])]

/-- A handler returning a plain string (scenario E). -/
def strHandler : Nat → List (List Char) → PyRet := fun _ _ => .str "oops".toList

/-- Method with template `check/{id}`, used to exhibit the collision of a
substituted value with a fixed endpoint token. -/
def c1cexMi : MethodInfo :=
  mkMi [SegT.lit "check".toList, SegT.par "id".toList] "GET" "application/json"

/-- An API with no class path, for the two-candidate class below. -/
def c5api : ApiInfo := ⟨"atl".toList, "v1".toList, none⟩

/-- First candidate `GET {x}`. -/
def c5miX : MethodInfo := mkMi [SegT.par "x".toList] "GET" "application/json"

/-- Second candidate `GET {y}`: both candidates match any one-segment
suffix. -/
def c5miY : MethodInfo := mkMi [SegT.par "y".toList] "GET" "application/json"

/-- The malformed template `check/{check_id/app/{a-b}` of the spec's
unbalanced-brace example (with a non-identifier interior in the closed
pair). -/
def c3badMi : MethodInfo :=
  ⟨"list", "check/\x7bcheck_id/app/\x7ba-b\x7d".toList, "GET", "application/json"⟩

/-- A class with two decorated methods whose configured descriptor names
(`zeta`, `alpha`) invert the alphabetical order of the attribute names
(`alpha`, `beta`) they are bound under. -/
def c10cls : HandlerClass :=
  ⟨[("alpha", some (methodDecoratorInfo "alpha" (some "zeta") none none none)),
    ("beta", some (methodDecoratorInfo "beta" (some "alpha") none none none))]⟩

/-- A POST method with the default JSON content type (scenario D). -/
def postMi : MethodInfo := mkMi [SegT.lit "checks".toList] "POST" "application/json"

theorem consHead_ne_nil (c : Char) (l : List (List Char)) : consHead c l ≠ [] := by
  cases l <;> simp [consHead]

theorem consMany_cons (s : List Char) (x : List Char) (xs : List (List Char)) :
    consMany s (x :: xs) = (s ++ x) :: xs := by
  induction s with
  | nil => rfl
  | cons c s ih => simp [consMany, List.foldr] at ih ⊢; simp [ih, consHead]

theorem splitOnSlash_ne_nil (l : List Char) : splitOnSlash l ≠ [] := by
  induction l with
  | nil => simp [splitOnSlash]
  | cons c rest ih =>
    by_cases h : c == '/' <;> simp [splitOnSlash, h, consHead_ne_nil]

theorem splitOnSlash_append (s r : List Char) (hs : ∀ c ∈ s, (c == '/') = false)
    (h2 : List Char) (t2 : List (List Char)) (hr : splitOnSlash r = h2 :: t2) :
    splitOnSlash (s ++ r) = (s ++ h2) :: t2 := by
  induction s with
  | nil => simpa using hr
  | cons c s ih =>
    have hc : (c == '/') = false := hs c (by simp)
    have ih2 := ih (fun d hd => hs d (by simp [hd]))
    simp [splitOnSlash, hc, ih2, consHead]

theorem splitOnSlash_pathOfSegs (segs : List (List Char))
    (h : ∀ s ∈ segs, ∀ c ∈ s, (c == '/') = false) :
    splitOnSlash (pathOfSegs segs) = [] :: segs := by
  induction segs with
  | nil => rfl
  | cons s rest ih =>
    have ih2 := ih (fun x hx => h x (by simp [hx]))
    have step : splitOnSlash (s ++ pathOfSegs rest) = (s ++ []) :: rest :=
      splitOnSlash_append s (pathOfSegs rest) (h s (by simp)) [] rest ih2
    simp only [pathOfSegs, List.foldr] at step ⊢
    simp [splitOnSlash, step]

theorem isW_ne (c d : Char) (h : isW c = true) (hd : isW d = false) :
    (c == d) = false := by
  rcases hbe : c == d with _ | _
  · rfl
  · exact absurd h (by simp [eq_of_beq hbe, hd])

theorem reScan_running_append (t : Char) (s r : List Char)
    (hs : ∀ c ∈ s, isW c = true) :
    reScan t .running (s ++ r) = consMany s (reScan t .running r) := by
  induction s with
  | nil => rfl
  | cons c s ih =>
    have hc : isW c = true := hs c (by simp)
    have ih2 := ih (fun d hd => hs d (by simp [hd]))
    simp [reScan, hc, ih2, consMany]

theorem reScan_idle_skip (t : Char) (s r : List Char)
    (hs : ∀ c ∈ s, (c == t) = false) :
    reScan t .idle (s ++ r) = reScan t .idle r := by
  induction s with
  | nil => rfl
  | cons c s ih =>
    have hc : (c == t) = false := hs c (by simp)
    have ih2 := ih (fun d hd => hs d (by simp [hd]))
    simp [reScan, hc, ih2]

theorem isW_slash : isW '/' = false := by decide

theorem isW_lbrace : isW lbrace = false := by decide

theorem isW_rbrace : isW rbrace = false := by decide

theorem reScan_slash_path (tl : List SegT) (h : ∀ t ∈ tl, WFseg t) :
    reScan '/' .idle (pathOfSegs (tl.map segStr)) = litsOf tl ∧
    reScan '/' .armed (pathOfSegs (tl.map segStr)) = litsOf tl ∧
    reScan '/' .running (pathOfSegs (tl.map segStr)) = [] :: litsOf tl := by
  induction tl with
  | nil => exact ⟨rfl, rfl, rfl⟩
  | cons t ts ih =>
    obtain ⟨ih1, ih2, ih3⟩ := ih (fun x hx => h x (by simp [hx]))
    have ht := h t (by simp)
    have key : reScan '/' .armed (segStr t ++ pathOfSegs (ts.map segStr)) =
        litsOf (t :: ts) := by
      cases t with
      | lit s =>
        obtain ⟨hne, hW⟩ := ht
        obtain ⟨c, s', rfl⟩ : ∃ c s', s = c :: s' := by
          cases s with
          | nil => exact absurd rfl hne
          | cons c s' => exact ⟨c, s', rfl⟩
        have hc : isW c = true := hW c (by simp)
        have hrun : reScan '/' .running (s' ++ pathOfSegs (ts.map segStr)) =
            consMany s' (reScan '/' .running (pathOfSegs (ts.map segStr))) :=
          reScan_running_append '/' s' _ (fun d hd => hW d (by simp [hd]))
        simp only [segStr, List.cons_append, reScan, hc, if_pos, List.append_eq]
        rw [hrun, ih3, consMany_cons]
        simp [litsOf, consHead]
      | par p =>
        obtain ⟨hne, hW⟩ := ht
        have hstep : segStr (SegT.par p) ++ pathOfSegs (ts.map segStr) =
            lbrace :: (p ++ (rbrace :: pathOfSegs (ts.map segStr))) := by
          simp [segStr]
        rw [hstep]
        have h1 : isW lbrace = false := isW_lbrace
        have h2 : (lbrace == '/') = false := by decide
        simp only [reScan, h1, h2, Bool.false_eq_true, if_false]
        rw [reScan_idle_skip '/' p _ (fun d hd => isW_ne d '/' (hW d hd) isW_slash)]
        have h3 : (rbrace == '/') = false := by decide
        simp only [reScan, h3, Bool.false_eq_true, if_false]
        rw [ih1]
        simp [litsOf]
    have hslash : ('/' == '/') = true := by decide
    refine ⟨?_, ?_, ?_⟩ <;>
      simp only [List.map_cons, pathOfSegs, List.foldr] at key ⊢ <;>
      simp [reScan, isW_slash, hslash, key]

theorem reScan_brace_path (tl : List SegT) (h : ∀ t ∈ tl, WFseg t) :
    reScan lbrace .idle (pathOfSegs (tl.map segStr)) = parsOf tl := by
  induction tl with
  | nil => rfl
  | cons t ts ih =>
    have ih1 := ih (fun x hx => h x (by simp [hx]))
    have ht := h t (by simp)
    have hsl : ('/' == lbrace) = false := by decide
    have key : reScan lbrace .idle (segStr t ++ pathOfSegs (ts.map segStr)) =
        parsOf (t :: ts) := by
      cases t with
      | lit s =>
        obtain ⟨hne, hW⟩ := ht
        simp only [segStr]
        rw [reScan_idle_skip lbrace s _
          (fun d hd => isW_ne d lbrace (hW d hd) isW_lbrace)]
        rw [ih1]
        simp [parsOf]
      | par p =>
        obtain ⟨hne, hW⟩ := ht
        have hstep : segStr (SegT.par p) ++ pathOfSegs (ts.map segStr) =
            lbrace :: (p ++ (rbrace :: pathOfSegs (ts.map segStr))) := by
          simp [segStr]
        rw [hstep]
        obtain ⟨c, p', rfl⟩ : ∃ c p', p = c :: p' := by
          cases p with
          | nil => exact absurd rfl hne
          | cons c p' => exact ⟨c, p', rfl⟩
        have hll : (lbrace == lbrace) = true := by decide
        have hc : isW c = true := hW c (by simp)
        simp only [reScan, hll, if_pos, List.cons_append, hc, List.append_eq]
        have hrun : reScan lbrace .running
            (p' ++ (rbrace :: pathOfSegs (ts.map segStr))) =
            consMany p' (reScan lbrace .running (rbrace :: pathOfSegs (ts.map segStr))) :=
          reScan_running_append lbrace p' _ (fun d hd => hW d (by simp [hd]))
        rw [hrun]
        have hrb : (rbrace == lbrace) = false := by decide
        simp only [reScan, isW_rbrace, Bool.false_eq_true, if_false, hrb]
        rw [ih1, consMany_cons]
        simp [parsOf, consHead]
    simp only [List.map_cons, pathOfSegs, List.foldr] at key ⊢
    simp [reScan, hsl, key]

theorem litsOf_parsOf_length (tl : List SegT) :
    (litsOf tl).length + (parsOf tl).length = tl.length := by
  induction tl with
  | nil => rfl
  | cons t ts ih => cases t <;> simp [litsOf, parsOf] at ih ⊢ <;> omega

theorem parsOf_append (a b : List SegT) : parsOf (a ++ b) = parsOf a ++ parsOf b := by
  simp [parsOf]

theorem parsOf_cpSegs (api : ApiInfo) : parsOf (cpSegs api) = [] := by
  cases h : api.path <;> simp [cpSegs, h, parsOf]

theorem litsOf_allT (api : ApiInfo) (tmpl : List SegT) :
    litsOf (allT api tmpl) = fixedTokens api tmpl := by
  simp [allT, litsOf, fixedTokens]

theorem substSegs_length (tl : List SegT) (vs : List (List Char))
    (hlen : vs.length = (parsOf tl).length) :
    (substSegs tl vs).length = tl.length := by
  induction tl generalizing vs with
  | nil => simp [substSegs]
  | cons t ts ih =>
    cases t with
    | lit s => simp [substSegs, parsOf] at hlen ⊢; exact ih vs hlen
    | par p =>
      cases vs with
      | nil => simp [parsOf] at hlen
      | cons v vs =>
        simp [substSegs, parsOf] at hlen ⊢
        exact ih vs hlen

theorem litsOf_cons_lit (s : List Char) (ts : List SegT) :
    litsOf (.lit s :: ts) = s :: litsOf ts := rfl

theorem litsOf_cons_par (p : List Char) (ts : List SegT) :
    litsOf (.par p :: ts) = litsOf ts := rfl

theorem parsOf_cons_lit (s : List Char) (ts : List SegT) :
    parsOf (.lit s :: ts) = parsOf ts := rfl

theorem parsOf_cons_par (p : List Char) (ts : List SegT) :
    parsOf (.par p :: ts) = p :: parsOf ts := rfl

theorem lits_mem_subst (tl : List SegT) (vs : List (List Char))
    (hlen : vs.length = (parsOf tl).length) (x : List Char) (hx : x ∈ litsOf tl) :
    x ∈ substSegs tl vs := by
  induction tl generalizing vs with
  | nil => simp [litsOf] at hx
  | cons t ts ih =>
    cases t with
    | lit s =>
      rw [litsOf_cons_lit] at hx
      rw [parsOf_cons_lit] at hlen
      rcases List.mem_cons.mp hx with rfl | hx2
      · simp [substSegs]
      · exact List.mem_cons.mpr (Or.inr (ih vs hlen hx2))
    | par p =>
      cases vs with
      | nil => simp [parsOf_cons_par] at hlen
      | cons v vs =>
        rw [litsOf_cons_par] at hx
        rw [parsOf_cons_par] at hlen
        simp at hlen
        exact List.mem_cons.mpr (Or.inr (ih vs hlen hx))

theorem subst_mem_cases (tl : List SegT) (vs : List (List Char)) (x : List Char)
    (hx : x ∈ substSegs tl vs) : x ∈ litsOf tl ∨ x ∈ vs := by
  induction tl generalizing vs with
  | nil => simp [substSegs] at hx
  | cons t ts ih =>
    cases t with
    | lit s =>
      rcases List.mem_cons.mp hx with rfl | hx2
      · exact Or.inl (by rw [litsOf_cons_lit]; exact List.mem_cons_self _ _)
      · rcases ih vs hx2 with h1 | h2
        · exact Or.inl (by rw [litsOf_cons_lit]; exact List.mem_cons.mpr (Or.inr h1))
        · exact Or.inr h2
    | par p =>
      cases vs with
      | nil => simp [substSegs] at hx
      | cons v vs =>
        rcases List.mem_cons.mp hx with rfl | hx2
        · exact Or.inr (List.mem_cons_self _ _)
        · rcases ih vs hx2 with h1 | h2
          · exact Or.inl (by rw [litsOf_cons_par]; exact h1)
          · exact Or.inr (List.mem_cons.mpr (Or.inr h2))

theorem subst_filter (tl : List SegT) (vs : List (List Char))
    (endpoint : List (List Char)) (hlen : vs.length = (parsOf tl).length)
    (hlits : ∀ x ∈ litsOf tl, x ∈ endpoint)
    (hvs : ∀ v ∈ vs, v ∉ endpoint ∧ v ≠ []) :
    (substSegs tl vs).filter
      (fun item => !(decide (item ∈ endpoint)) && !(item == [])) = vs := by
  induction tl generalizing vs with
  | nil =>
    have hv : vs = [] := by
      cases vs with
      | nil => rfl
      | cons v vs => simp [parsOf] at hlen
    simp [substSegs, hv]
  | cons t ts ih =>
    cases t with
    | lit s =>
      have hs : s ∈ endpoint := hlits s (by rw [litsOf_cons_lit]; exact List.mem_cons_self _ _)
      rw [parsOf_cons_lit] at hlen
      have ih2 := ih vs hlen
        (fun x hx => hlits x (by rw [litsOf_cons_lit]; exact List.mem_cons.mpr (Or.inr hx))) hvs
      show List.filter _ (s :: substSegs ts vs) = vs
      rw [List.filter_cons]
      have hcond : (!(decide (s ∈ endpoint)) && !(s == [])) = false := by
        simp [hs]
      rw [hcond]
      simpa using ih2
    | par p =>
      cases vs with
      | nil => simp [parsOf_cons_par] at hlen
      | cons v vs =>
        rw [parsOf_cons_par] at hlen
        simp at hlen
        obtain ⟨hv1, hv2⟩ := hvs v (List.mem_cons_self _ _)
        have ih2 := ih vs hlen
          (fun x hx => hlits x (by rw [litsOf_cons_par]; exact hx))
          (fun w hw => hvs w (List.mem_cons.mpr (Or.inr hw)))
        show List.filter _ (v :: substSegs ts vs) = v :: vs
        rw [List.filter_cons]
        have hcond : (!(decide (v ∈ endpoint)) && !(v == [])) = true := by
          simp [hv1, hv2]
        rw [hcond]
        simpa using ih2

theorem braceTail_run (p : List Char) (seen : Bool)
    (hp : ∀ c ∈ p, isW c = true) (hne : p ≠ [] ∨ seen = true) :
    braceTail seen (p ++ [rbrace]) = true := by
  induction p generalizing seen with
  | nil =>
    rcases hne with h | h
    · exact absurd rfl h
    · simp [braceTail, h]
  | cons c p ih =>
    have hc : isW c = true := hp c (by simp)
    have h1 : (c == rbrace) = false := isW_ne c rbrace hc isW_rbrace
    have h2 : (c == lbrace) = false := isW_ne c lbrace hc isW_lbrace
    simp only [List.cons_append, braceTail, h1, h2, Bool.false_eq_true, if_false]
    exact ih true (fun d hd => hp d (by simp [hd])) (Or.inr rfl)

theorem bracePat_of_par (p : List Char) (hne : p ≠ []) (hp : ∀ c ∈ p, isW c = true) :
    bracePat (lbrace :: (p ++ [rbrace])) = true := by
  have h1 : (lbrace == lbrace) = true := by decide
  simp only [bracePat, h1, Bool.true_and]
  exact braceTail_run p false hp (Or.inl hne)

theorem contains_lbrace_of_W (s : List Char) (h : ∀ c ∈ s, isW c = true) :
    s.contains lbrace = false := by
  rcases hc : s.contains lbrace with _ | _
  · rfl
  · exact absurd (h lbrace (List.elem_iff.mp hc)) (by simp [isW_lbrace])

theorem getLast_ne_slash (p : List Char) (hp : simpleW p) :
    (p.getLast? == some '/') = false := by
  rcases hl : p.getLast? with _ | c
  · rfl
  · have hc : isW c = true := hp.2 c (List.mem_of_mem_getLast? hl)
    have hne : c ≠ '/' := by
      intro h
      rw [h] at hc
      exact absurd hc (by simp [isW_slash])
    simp [hne]

theorem segStr_no_slash (t : SegT) (ht : WFseg t) :
    ∀ c ∈ segStr t, (c == '/') = false := by
  cases t with
  | lit s => exact fun c hc => isW_ne c '/' (ht.2 c hc) isW_slash
  | par p =>
    intro c hc
    simp only [segStr, List.mem_cons, List.mem_append] at hc
    rcases hc with rfl | hc | hc2
    · decide
    · exact isW_ne c '/' (ht.2 c hc) isW_slash
    · have hcr : c = rbrace := by simpa using hc2
      subst hcr
      decide

theorem WF_allT (api : ApiInfo) (tmpl : List SegT) (hname : simpleW api.name)
    (hver : simpleW api.version) (hcp : ∀ p, api.path = some p → simpleW p)
    (htm : ∀ t ∈ tmpl, WFseg t) : ∀ t ∈ allT api tmpl, WFseg t := by
  intro t ht
  simp only [allT, List.mem_cons, List.mem_append] at ht
  rcases ht with rfl | rfl | hcps | htl
  · exact hname
  · exact hver
  · cases hap : api.path with
    | none => simp [cpSegs, hap] at hcps
    | some p =>
      simp [cpSegs, hap] at hcps
      rw [hcps]
      exact hcp p hap
  · exact htm t htl

theorem renderTmpl_path (t : SegT) (ts : List SegT) :
    '/' :: renderTmpl (t :: ts) = pathOfSegs ((t :: ts).map segStr) := by
  induction ts generalizing t with
  | nil => simp [renderTmpl, pathOfSegs]
  | cons t2 ts ih =>
    have ih2 := ih t2
    simp only [renderTmpl, List.map_cons, pathOfSegs, List.foldr] at ih2 ⊢
    simp [← ih2]

theorem renderTmpl_head_ne_slash (t : SegT) (ts : List SegT) (ht : WFseg t) :
    ((renderTmpl (t :: ts)).head? == some '/') = false := by
  have key : ∀ r : List Char, ((segStr t ++ r).head? == some '/') = false := by
    intro r
    cases t with
    | lit s =>
      obtain ⟨c, s2, rfl⟩ : ∃ c s2, s = c :: s2 := by
        cases s with
        | nil => exact absurd rfl ht.1
        | cons c s2 => exact ⟨c, s2, rfl⟩
      exact isW_ne c '/' (ht.2 c (by simp)) isW_slash
    | par p => rfl
  cases ts with
  | nil =>
    have h0 := key []
    simpa [renderTmpl] using h0
  | cons t2 ts2 =>
    have h0 := key ('/' :: renderTmpl (t2 :: ts2))
    simpa [renderTmpl] using h0

theorem pathOfSegs_cons (s : List Char) (l : List (List Char)) :
    pathOfSegs (s :: l) = '/' :: (s ++ pathOfSegs l) := rfl

theorem apiPath_renderTmpl (api : ApiInfo) (t : SegT) (ts : List SegT)
    (hcp : ∀ p, api.path = some p → simpleW p) :
    '/' :: ((match api.path with
      | none => ([] : List Char)
      | some p => if p == [] then [] else if p.getLast? == some '/' then p else p ++ ['/']) ++
      renderTmpl (t :: ts)) =
    pathOfSegs ((cpSegs api ++ (t :: ts)).map segStr) := by
  cases hap : api.path with
  | none =>
    simp only [cpSegs, hap, List.nil_append]
    exact renderTmpl_path t ts
  | some p =>
    have hp := hcp p hap
    have h1 : (p == []) = false := beq_eq_false_iff_ne.mpr hp.1
    have h2 := getLast_ne_slash p hp
    simp only [cpSegs, hap, h1, h2, Bool.false_eq_true, if_false, List.cons_append,
      List.nil_append, List.map_cons]
    have hr : pathOfSegs (segStr t :: List.map segStr ts) = '/' :: renderTmpl (t :: ts) := by
      rw [← List.map_cons]
      exact (renderTmpl_path t ts).symm
    rw [pathOfSegs_cons, hr]
    simp [segStr]

theorem get_path_allT (api : ApiInfo) (tmpl : List SegT) (verb ct : String)
    (hname : simpleW api.name) (hver : simpleW api.version)
    (hcp : ∀ p, api.path = some p → simpleW p)
    (htm : ∀ t ∈ tmpl, WFseg t) (hne : tmpl ≠ []) :
    get_path api (mkMi tmpl verb ct) =
      .ok (pathOfSegs ((allT api tmpl).map segStr)) := by
  obtain ⟨t, ts, rfl⟩ : ∃ t ts, tmpl = t :: ts := by
    cases tmpl with
    | nil => exact absurd rfl hne
    | cons t ts => exact ⟨t, ts, rfl⟩
  have hhead := renderTmpl_head_ne_slash t ts (htm t (by simp))
  have hWall := WF_allT api (t :: ts) hname hver hcp htm
  have hfull : '/' :: (api.name ++ '/' :: (api.version ++ '/' ::
      ((match api.path with
        | none => ([] : List Char)
        | some p =>
          if p == [] then [] else if p.getLast? == some '/' then p else p ++ ['/']) ++
        renderTmpl (t :: ts)))) =
      pathOfSegs ((allT api (t :: ts)).map segStr) := by
    simp only [allT, List.map_cons, pathOfSegs_cons, segStr]
    rw [← apiPath_renderTmpl api t ts hcp]
  have hnoslash : ∀ s ∈ (allT api (t :: ts)).map segStr, ∀ c ∈ s, (c == '/') = false := by
    intro s hs
    obtain ⟨t0, ht0, rfl⟩ := List.mem_map.mp hs
    exact segStr_no_slash t0 (hWall t0 ht0)
  have hsplit := splitOnSlash_pathOfSegs _ hnoslash
  have hfind : (([] : List Char) :: (allT api (t :: ts)).map segStr).find?
      (fun part => needsCheck part && !bracePat part) = none := by
    apply List.find?_eq_none.mpr
    intro part hpart
    have hfalse : (needsCheck part && !bracePat part) = false := by
      rcases List.mem_cons.mp hpart with rfl | hpart2
      · simp [needsCheck]
      · obtain ⟨t0, ht0, rfl⟩ := List.mem_map.mp hpart2
        have hw := hWall t0 ht0
        cases t0 with
        | lit s =>
          have hcont : lbrace ∉ s := by
            intro hmem
            exact absurd (hw.2 lbrace hmem) (by simp [isW_lbrace])
          simp [needsCheck, segStr, hcont]
        | par p =>
          have hb := bracePat_of_par p hw.1 hw.2
          simp [segStr, hb]
    simp [hfalse]
  simp only [get_path, mkMi, hhead, Bool.false_eq_true, if_false]
  rw [hfull, hsplit, hfind]

theorem handleLoop_single (api : ApiInfo) (verb : String)
    (pathParts eps : List (List Char)) (reqPath : List Char) (bodyOk : Bool)
    (handler : Nat → List (List Char) → PyRet) (i : Nat) (mi : MethodInfo)
    (cp : List Char) (h1 : mi.http_method = verb)
    (hgp : get_path api mi = .ok cp)
    (h2 : (reFindallAfter '/' cp).filter (fun x => decide (x ∈ pathParts)) =
      reFindallAfter '/' cp)
    (h3 : (reFindallAfter lbrace cp).length + (reFindallAfter '/' cp).length = eps.length)
    (h4 : (mi.http_method = "POST" ∨ mi.http_method = "PUT") →
      mi.content_type = "application/json" → bodyOk = true) :
    (handleLoop api verb pathParts eps reqPath bodyOk handler [(i, mi)]).invoked
      = [(i, find_params_value_of_url (reFindallAfter '/' cp) reqPath)] := by
  simp only [handleLoop, hgp]
  rw [if_neg (fun h => h h1)]
  rw [h2]
  rw [if_neg (fun h => h rfl)]
  rw [if_neg (fun h => h h3)]
  by_cases hpp : (mi.http_method = "POST" ∨ mi.http_method = "PUT") ∧
      mi.content_type = "application/json"
  · rw [if_pos hpp, h4 hpp.1 hpp.2]
    simp only [if_true]
    cases hh : handler i (find_params_value_of_url (reFindallAfter '/' cp) reqPath) <;>
      simp [handleLoop, hh]
  · rw [if_neg hpp]
    cases hh : handler i (find_params_value_of_url (reFindallAfter '/' cp) reqPath) <;>
      simp [handleLoop, hh]

/-- C1 (amended): round-trip of registration and dispatch for a handler
class whose candidate list is the single registered Method Descriptor.  For
every API descriptor with word-character name/version/class-path, every
well-formed template with any number of placeholders, and every list of
substituted values that are non-empty, slash-free and distinct from all
fixed endpoint tokens of the compiled path, a request with the descriptor's
verb and the substituted path resolves under dispatch to that descriptor,
and the extracted positional arguments are exactly the substituted values
in left-to-right order.  (As stated in the spec the claim is false: a
substituted value equal to a fixed endpoint token is dropped by the purely
membership-based extraction, see the counterexample.) -/
theorem c1_round_trip_dispatch (api : ApiInfo) (tmpl : List SegT)
    (vals : List (List Char)) (verb ct : String) (bodyOk : Bool)
    (handler : Nat → List (List Char) → PyRet)
    (hname : simpleW api.name) (hver : simpleW api.version)
    (hcp : ∀ p, api.path = some p → simpleW p)
    (htm : ∀ t ∈ tmpl, WFseg t) (hne : tmpl ≠ [])
    (hlen : vals.length = (parsOf tmpl).length)
    (hvals : ∀ v ∈ vals, v ≠ [] ∧ '/' ∉ v ∧ v ∉ fixedTokens api tmpl)
    (hbody : (verb = "POST" ∨ verb = "PUT") → ct = "application/json" → bodyOk = true) :
    (handle api [mkMi tmpl verb ct] verb (requestPath api tmpl vals) bodyOk
      handler).invoked = [(0, vals)] := by
  have hWall := WF_allT api tmpl hname hver hcp htm
  have hWct : ∀ t ∈ cpSegs api ++ tmpl, WFseg t := by
    intro t ht
    exact hWall t (List.mem_cons.mpr (Or.inr (List.mem_cons.mpr (Or.inr ht))))
  have hlen2 : vals.length = (parsOf (cpSegs api ++ tmpl)).length := by
    rw [parsOf_append, parsOf_cpSegs]
    simpa using hlen
  have hlitW : ∀ x ∈ litsOf (cpSegs api ++ tmpl), simpleW x := by
    intro x hx
    obtain ⟨a, ha, hfa⟩ := List.mem_filterMap.mp hx
    cases a with
    | lit s =>
      have hsx : s = x := by simpa using hfa
      subst hsx
      exact hWct _ ha
    | par p => simp at hfa
  have hslashfree : ∀ s ∈ api.name :: api.version :: substSegs (cpSegs api ++ tmpl) vals,
      ∀ c ∈ s, (c == '/') = false := by
    intro s hs
    rcases List.mem_cons.mp hs with rfl | hs2
    · exact fun c hc => isW_ne c '/' (hname.2 c hc) isW_slash
    · rcases List.mem_cons.mp hs2 with rfl | hs3
      · exact fun c hc => isW_ne c '/' (hver.2 c hc) isW_slash
      · rcases subst_mem_cases _ _ _ hs3 with hl | hv
        · exact fun c hc => isW_ne c '/' ((hlitW s hl).2 c hc) isW_slash
        · intro c hc
          have h2 := (hvals s hv).2.1
          have hcne : c ≠ '/' := fun hceq => h2 (hceq ▸ hc)
          simp [hcne]
  have hreqsplit : splitOnSlash (requestPath api tmpl vals) =
      [] :: (api.name :: api.version :: substSegs (cpSegs api ++ tmpl) vals) := by
    simp only [requestPath]
    exact splitOnSlash_pathOfSegs _ hslashfree
  have hnonempty : ∀ x ∈ api.name :: api.version :: substSegs (cpSegs api ++ tmpl) vals,
      (!(x == [])) = true := by
    intro x hx
    rcases List.mem_cons.mp hx with rfl | hx2
    · simp [hname.1]
    · rcases List.mem_cons.mp hx2 with rfl | hx3
      · simp [hver.1]
      · rcases subst_mem_cases _ _ _ hx3 with hl | hv
        · simp [(hlitW x hl).1]
        · simp [(hvals x hv).1]
  have hendpoint : reFindallAfter '/' (pathOfSegs ((allT api tmpl).map segStr)) =
      fixedTokens api tmpl := by
    simp only [reFindallAfter]
    rw [(reScan_slash_path (allT api tmpl) hWall).1, litsOf_allT]
  have hparams : reFindallAfter lbrace (pathOfSegs ((allT api tmpl).map segStr)) =
      parsOf tmpl := by
    simp only [reFindallAfter]
    rw [reScan_brace_path (allT api tmpl) hWall]
    simp [allT, parsOf_cons_lit, parsOf_append, parsOf_cpSegs]
  have htokmem : ∀ tok ∈ fixedTokens api tmpl,
      tok ∈ ([] :: (api.name :: api.version :: substSegs (cpSegs api ++ tmpl) vals)) := by
    intro tok htok
    simp only [fixedTokens, List.mem_cons] at htok
    rcases htok with rfl | rfl | h3
    · simp
    · simp
    · have hsub := lits_mem_subst _ vals hlen2 tok h3
      simp [hsub]
  have hfiltertok : (fixedTokens api tmpl).filter
      (fun x => decide (x ∈
        ([] :: (api.name :: api.version :: substSegs (cpSegs api ++ tmpl) vals)))) =
      fixedTokens api tmpl :=
    List.filter_eq_self.mpr (fun a ha => by simp [htokmem a ha])
  have hsublen := substSegs_length (cpSegs api ++ tmpl) vals hlen2
  have hlp := litsOf_parsOf_length (cpSegs api ++ tmpl)
  have hparstmpl : (parsOf (cpSegs api ++ tmpl)).length = (parsOf tmpl).length := by
    rw [parsOf_append, parsOf_cpSegs]
    simp
  have heps : (([] :: (api.name :: api.version ::
      substSegs (cpSegs api ++ tmpl) vals)).filter (fun x => !(x == []))) =
      api.name :: api.version :: substSegs (cpSegs api ++ tmpl) vals := by
    rw [List.filter_cons]
    have h0 : ((fun (x : List Char) => !(x == [])) []) = false := rfl
    simp only [h0, Bool.false_eq_true, if_false]
    exact List.filter_eq_self.mpr hnonempty
  have harity : (parsOf tmpl).length + (fixedTokens api tmpl).length =
      (api.name :: api.version :: substSegs (cpSegs api ++ tmpl) vals).length := by
    simp only [List.length_cons, fixedTokens, hsublen]
    omega
  have hextract : find_params_value_of_url
      (reFindallAfter '/' (pathOfSegs ((allT api tmpl).map segStr)))
      (requestPath api tmpl vals) = vals := by
    rw [hendpoint]
    simp only [find_params_value_of_url]
    rw [hreqsplit]
    have c0 : ((fun (item : List Char) =>
        !(decide (item ∈ fixedTokens api tmpl)) && !(item == [])) []) = false := by
      simp
    have c1 : ((fun (item : List Char) =>
        !(decide (item ∈ fixedTokens api tmpl)) && !(item == [])) api.name) = false := by
      simp [fixedTokens]
    have c2 : ((fun (item : List Char) =>
        !(decide (item ∈ fixedTokens api tmpl)) && !(item == [])) api.version) = false := by
      simp [fixedTokens]
    simp only [List.filter_cons, c0, c1, c2, Bool.false_eq_true, if_false]
    exact subst_filter (cpSegs api ++ tmpl) vals (fixedTokens api tmpl) hlen2
      (fun x hx => by simp [fixedTokens, hx])
      (fun v hv => ⟨(hvals v hv).2.2, (hvals v hv).1⟩)
  have hgp := get_path_allT api tmpl verb ct hname hver hcp htm hne
  have hmem : verb ∈ ([mkMi tmpl verb ct].map (fun f => f.http_method)) := by
    simp [mkMi]
  simp only [handle]
  rw [hreqsplit, heps, if_pos hmem]
  rw [show ([mkMi tmpl verb ct].enum) = [(0, mkMi tmpl verb ct)] from rfl]
  rw [handleLoop_single api verb _ _ _ bodyOk handler 0 (mkMi tmpl verb ct)
    (pathOfSegs ((allT api tmpl).map segStr)) rfl hgp
    (by rw [hendpoint]; exact hfiltertok)
    (by rw [hparams, hendpoint]; exact harity)
    (fun h hct => hbody (by simpa [mkMi] using h) (by simpa [mkMi] using hct))]
  rw [hextract]

theorem handleLoop_http_msg (api : ApiInfo) (verb : String)
    (pathParts eps : List (List Char)) (reqPath : List Char) (bodyOk : Bool)
    (handler : Nat → List (List Char) → PyRet) :
    ∀ (L : List (Nat × MethodInfo)) (c : Nat) (m : Option String),
      (handleLoop api verb pathParts eps reqPath bodyOk handler L).error =
        some (.httpError c m) →
      (c = 400 ∨ c = 500) ∧ ∃ s, m = some s := by
  intro L
  induction L with
  | nil => intro c m h; simp [handleLoop] at h
  | cons im rest ih =>
    obtain ⟨i, mi⟩ := im
    intro c m h
    simp only [handleLoop] at h
    split at h
    · exact ih c m h
    · split at h
      · simp at h
      · split at h
        · exact ih c m h
        · split at h
          · exact ih c m h
          · split at h
            · split at h
              · split at h
                · simp at h
                  exact ih c m h
                · simp at h
                  exact ih c m h
                · simp at h
                  exact ⟨Or.inr h.1.symm, "Response is not a json document", h.2.symm⟩
              · simp at h
                exact ⟨Or.inl h.1.symm, "Invalid JSON", h.2.symm⟩
            · split at h
              · simp at h
                exact ih c m h
              · simp at h
                exact ih c m h
              · simp at h
                exact ⟨Or.inr h.1.symm, "Response is not a json document", h.2.symm⟩

/-- C6: for every inbound request, dispatch fails with `MethodNotAllowed`
(HTTP 405) if and only if the request verb is not among the http verbs of
the class's registered Method Descriptors; when the verb is missing, the
405 is raised before any path matching, so nothing is invoked and nothing
is written regardless of whether any template could match the path. -/
theorem c6_method_not_allowed (api : ApiInfo) (funcs : List MethodInfo) (verb : String)
    (reqPath : List Char) (bodyOk : Bool) (handler : Nat → List (List Char) → PyRet) :
    ((handle api funcs verb reqPath bodyOk handler).error = some (.httpError 405 none) ↔
      verb ∉ funcs.map (fun f => f.http_method)) ∧
    (verb ∉ funcs.map (fun f => f.http_method) →
      handle api funcs verb reqPath bodyOk handler =
        ⟨[], [], some (.httpError 405 none)⟩) := by
  by_cases hm : verb ∈ funcs.map (fun f => f.http_method)
  · have hh : handle api funcs verb reqPath bodyOk handler =
        handleLoop api verb (splitOnSlash reqPath)
          ((splitOnSlash reqPath).filter (fun x => !(x == []))) reqPath bodyOk handler
          funcs.enum := by
      simp only [handle]
      rw [if_pos hm]
    constructor
    · constructor
      · intro h
        exfalso
        rw [hh] at h
        have hmsg := handleLoop_http_msg api verb _ _ reqPath bodyOk handler
          funcs.enum 405 none h
        obtain ⟨s, hs⟩ := hmsg.2
        exact Option.noConfusion hs
      · intro hn
        exact absurd hm hn
    · intro hn
      exact absurd hm hn
  · have hh : handle api funcs verb reqPath bodyOk handler =
        ⟨[], [], some (.httpError 405 none)⟩ := by
      simp only [handle]
      rw [if_neg hm]
    constructor
    · rw [hh]
      simpa using hm
    · intro _
      exact hh

/-- C6 witness (scenario B): `POST /atl/v1/epg/check/42/app/7` against the
demo class, whose only method is a GET, yields HTTP 405. -/
theorem c6_method_not_allowed_witness :
    handle demoApi [demoMi] "POST" "/atl/v1/epg/check/42/app/7".toList true demoHandler =
      ⟨[], [], some (.httpError 405 none)⟩ :=
  (c6_method_not_allowed demoApi [demoMi] "POST" "/atl/v1/epg/check/42/app/7".toList
    true demoHandler).2 (by decide)

theorem handleLoop_cons_skip_verb (api : ApiInfo) (verb : String)
    (pp eps : List (List Char)) (rp : List Char) (b : Bool)
    (hd : Nat → List (List Char) → PyRet) (i : Nat) (mi : MethodInfo)
    (rest : List (Nat × MethodInfo)) (h1 : mi.http_method ≠ verb) :
    handleLoop api verb pp eps rp b hd ((i, mi) :: rest) =
      handleLoop api verb pp eps rp b hd rest := by
  simp only [handleLoop]
  rw [if_pos h1]

theorem handleLoop_cons_config (api : ApiInfo) (verb : String)
    (pp eps : List (List Char)) (rp : List Char) (b : Bool)
    (hd : Nat → List (List Char) → PyRet) (i : Nat) (mi : MethodInfo)
    (rest : List (Nat × MethodInfo)) (e : List Char × List Char)
    (h1 : mi.http_method = verb) (hgp : get_path api mi = .error e) :
    handleLoop api verb pp eps rp b hd ((i, mi) :: rest) =
      ⟨[], [], some (.configError e.1 e.2)⟩ := by
  simp only [handleLoop, hgp]
  rw [if_neg (fun hne => hne h1)]

theorem handleLoop_cons_skip_endpoint (api : ApiInfo) (verb : String)
    (pp eps : List (List Char)) (rp : List Char) (b : Bool)
    (hd : Nat → List (List Char) → PyRet) (i : Nat) (mi : MethodInfo)
    (rest : List (Nat × MethodInfo)) (cp : List Char)
    (h1 : mi.http_method = verb) (hgp : get_path api mi = .ok cp)
    (h2 : reFindallAfter '/' cp ≠
      (reFindallAfter '/' cp).filter (fun x => decide (x ∈ pp))) :
    handleLoop api verb pp eps rp b hd ((i, mi) :: rest) =
      handleLoop api verb pp eps rp b hd rest := by
  simp only [handleLoop, hgp]
  rw [if_neg (fun hne => hne h1), if_pos h2]

theorem handleLoop_cons_skip_arity (api : ApiInfo) (verb : String)
    (pp eps : List (List Char)) (rp : List Char) (b : Bool)
    (hd : Nat → List (List Char) → PyRet) (i : Nat) (mi : MethodInfo)
    (rest : List (Nat × MethodInfo)) (cp : List Char)
    (h1 : mi.http_method = verb) (hgp : get_path api mi = .ok cp)
    (h2 : (reFindallAfter '/' cp).filter (fun x => decide (x ∈ pp)) =
      reFindallAfter '/' cp)
    (h3 : (reFindallAfter lbrace cp).length + (reFindallAfter '/' cp).length ≠
      eps.length) :
    handleLoop api verb pp eps rp b hd ((i, mi) :: rest) =
      handleLoop api verb pp eps rp b hd rest := by
  simp only [handleLoop, hgp]
  rw [if_neg (fun hne => hne h1), h2, if_neg (fun hne => hne rfl), if_pos h3]

theorem handleLoop_cons_badbody (api : ApiInfo) (verb : String)
    (pp eps : List (List Char)) (rp : List Char)
    (hd : Nat → List (List Char) → PyRet) (i : Nat) (mi : MethodInfo)
    (rest : List (Nat × MethodInfo)) (cp : List Char)
    (h1 : mi.http_method = verb) (hgp : get_path api mi = .ok cp)
    (h2 : (reFindallAfter '/' cp).filter (fun x => decide (x ∈ pp)) =
      reFindallAfter '/' cp)
    (h3 : (reFindallAfter lbrace cp).length + (reFindallAfter '/' cp).length =
      eps.length)
    (hA : (mi.http_method = "POST" ∨ mi.http_method = "PUT") ∧
      mi.content_type = "application/json") :
    handleLoop api verb pp eps rp false hd ((i, mi) :: rest) =
      ⟨[], [], some (.httpError 400 (some "Invalid JSON"))⟩ := by
  simp only [handleLoop, hgp]
  rw [if_neg (fun hne => hne h1), h2, if_neg (fun hne => hne rfl),
    if_neg (fun hne => hne h3), if_pos hA]
  simp

theorem handleLoop_cons_invoke (api : ApiInfo) (verb : String)
    (pp eps : List (List Char)) (rp : List Char) (b : Bool)
    (hd : Nat → List (List Char) → PyRet) (i : Nat) (mi : MethodInfo)
    (rest : List (Nat × MethodInfo)) (cp : List Char)
    (h1 : mi.http_method = verb) (hgp : get_path api mi = .ok cp)
    (h2 : (reFindallAfter '/' cp).filter (fun x => decide (x ∈ pp)) =
      reFindallAfter '/' cp)
    (h3 : (reFindallAfter lbrace cp).length + (reFindallAfter '/' cp).length =
      eps.length)
    (h4 : ((mi.http_method = "POST" ∨ mi.http_method = "PUT") ∧
      mi.content_type = "application/json") → b = true) :
    handleLoop api verb pp eps rp b hd ((i, mi) :: rest) =
      (match hd i (find_params_value_of_url (reFindallAfter '/' cp) rp) with
       | .dict f =>
         let o := handleLoop api verb pp eps rp b hd rest
         ⟨(i, find_params_value_of_url (reFindallAfter '/' cp) rp) :: o.invoked,
           .obj f :: o.writes, o.error⟩
       | .list l =>
         let o := handleLoop api verb pp eps rp b hd rest
         ⟨(i, find_params_value_of_url (reFindallAfter '/' cp) rp) :: o.invoked,
           .itemsWrap l :: o.writes, o.error⟩
       | .str _ =>
         ⟨[(i, find_params_value_of_url (reFindallAfter '/' cp) rp)], [],
           some (.httpError 500 (some "Response is not a json document"))⟩) := by
  simp only [handleLoop, hgp]
  rw [if_neg (fun hne => hne h1), h2, if_neg (fun hne => hne rfl),
    if_neg (fun hne => hne h3)]
  by_cases hA : (mi.http_method = "POST" ∨ mi.http_method = "PUT") ∧
      mi.content_type = "application/json"
  · rw [if_pos hA, h4 hA]
    simp only [if_true]
  · rw [if_neg hA]

theorem handleLoop_writes_le (api : ApiInfo) (verb : String)
    (pp eps : List (List Char)) (rp : List Char) (b : Bool)
    (hd : Nat → List (List Char) → PyRet) :
    ∀ L, (handleLoop api verb pp eps rp b hd L).writes.length ≤
      (handleLoop api verb pp eps rp b hd L).invoked.length := by
  intro L
  induction L with
  | nil => simp [handleLoop]
  | cons im rest ih =>
    obtain ⟨i0, mi⟩ := im
    simp only [handleLoop]
    split
    · exact ih
    · split
      · exact Nat.le_refl _
      · split
        · exact ih
        · split
          · exact ih
          · split
            · split
              · split
                · exact Nat.succ_le_succ ih
                · exact Nat.succ_le_succ ih
                · exact Nat.zero_le _
              · exact Nat.le_refl _
            · split
              · exact Nat.succ_le_succ ih
              · exact Nat.succ_le_succ ih
              · exact Nat.zero_le _

theorem handleLoop_writes_nil (api : ApiInfo) (verb : String)
    (pp eps : List (List Char)) (rp : List Char) (b : Bool)
    (hd : Nat → List (List Char) → PyRet) (L : List (Nat × MethodInfo))
    (h : (handleLoop api verb pp eps rp b hd L).invoked = []) :
    (handleLoop api verb pp eps rp b hd L).writes = [] := by
  have hle := handleLoop_writes_le api verb pp eps rp b hd L
  rw [h] at hle
  exact List.eq_nil_of_length_eq_zero (Nat.le_zero.mp hle)

theorem handleLoop_unique_invoke (api : ApiInfo) (verb : String)
    (pp eps : List (List Char)) (rp : List Char) (b : Bool)
    (hd : Nat → List (List Char) → PyRet) :
    ∀ (L : List (Nat × MethodInfo)) (i : Nat) (p : List (List Char)),
      (handleLoop api verb pp eps rp b hd L).invoked = [(i, p)] →
      (∀ f, hd i p = .dict f →
        (handleLoop api verb pp eps rp b hd L).writes = [.obj f]) ∧
      (∀ l, hd i p = .list l →
        (handleLoop api verb pp eps rp b hd L).writes = [.itemsWrap l]) ∧
      (∀ s, hd i p = .str s →
        (handleLoop api verb pp eps rp b hd L).writes = [] ∧
        (handleLoop api verb pp eps rp b hd L).error =
          some (.httpError 500 (some "Response is not a json document"))) := by
  intro L
  induction L with
  | nil => intro i p h; simp [handleLoop] at h
  | cons im rest ih =>
    obtain ⟨i0, mi⟩ := im
    intro i p h
    by_cases hv : mi.http_method = verb
    · cases hgp : get_path api mi with
      | error e =>
        rw [handleLoop_cons_config api verb pp eps rp b hd i0 mi rest e hv hgp] at h
        simp at h
      | ok cp =>
        by_cases hep : reFindallAfter '/' cp =
            (reFindallAfter '/' cp).filter (fun x => decide (x ∈ pp))
        · by_cases har : (reFindallAfter lbrace cp).length +
              (reFindallAfter '/' cp).length = eps.length
          · have hinv : ∀ (h4 : ((mi.http_method = "POST" ∨ mi.http_method = "PUT") ∧
                mi.content_type = "application/json") → b = true), _ := fun h4 =>
              handleLoop_cons_invoke api verb pp eps rp b hd i0 mi rest cp hv hgp
                hep.symm har h4
            by_cases hA : (mi.http_method = "POST" ∨ mi.http_method = "PUT") ∧
                mi.content_type = "application/json"
            · cases b with
              | false =>
                rw [handleLoop_cons_badbody api verb pp eps rp hd i0 mi rest cp hv hgp
                  hep.symm har hA] at h
                simp at h
              | true =>
                rw [handleLoop_cons_invoke api verb pp eps rp true hd i0 mi rest cp hv hgp
                  hep.symm har (fun _ => rfl)] at h ⊢
                cases hh : hd i0 (find_params_value_of_url (reFindallAfter '/' cp) rp) with
                | dict f0 =>
                  simp only [hh] at h ⊢
                  obtain ⟨⟨hi, hp⟩, hinv0⟩ := by simpa using h
                  subst hi
                  subst hp
                  have hw0 := handleLoop_writes_nil api verb pp eps rp true hd rest hinv0
                  refine ⟨?_, ?_, ?_⟩
                  · intro f hf
                    rw [hh] at hf
                    obtain rfl := (PyRet.dict.inj hf).symm
                    simp [hw0]
                  · intro l hf
                    rw [hh] at hf
                    exact absurd hf (by simp)
                  · intro s hf
                    rw [hh] at hf
                    exact absurd hf (by simp)
                | list l0 =>
                  simp only [hh] at h ⊢
                  obtain ⟨⟨hi, hp⟩, hinv0⟩ := by simpa using h
                  subst hi
                  subst hp
                  have hw0 := handleLoop_writes_nil api verb pp eps rp true hd rest hinv0
                  refine ⟨?_, ?_, ?_⟩
                  · intro f hf
                    rw [hh] at hf
                    exact absurd hf (by simp)
                  · intro l hf
                    rw [hh] at hf
                    obtain rfl := (PyRet.list.inj hf).symm
                    simp [hw0]
                  · intro s hf
                    rw [hh] at hf
                    exact absurd hf (by simp)
                | str s0 =>
                  simp only [hh] at h ⊢
                  obtain ⟨hi, hp⟩ := by simpa using h
                  subst hi
                  subst hp
                  refine ⟨?_, ?_, ?_⟩
                  · intro f hf
                    rw [hh] at hf
                    exact absurd hf (by simp)
                  · intro l hf
                    rw [hh] at hf
                    exact absurd hf (by simp)
                  · intro s hf
                    exact ⟨trivial, trivial⟩
            · rw [handleLoop_cons_invoke api verb pp eps rp b hd i0 mi rest cp hv hgp
                hep.symm har (fun hA2 => absurd hA2 hA)] at h ⊢
              cases hh : hd i0 (find_params_value_of_url (reFindallAfter '/' cp) rp) with
              | dict f0 =>
                simp only [hh] at h ⊢
                obtain ⟨⟨hi, hp⟩, hinv0⟩ := by simpa using h
                subst hi
                subst hp
                have hw0 := handleLoop_writes_nil api verb pp eps rp b hd rest hinv0
                refine ⟨?_, ?_, ?_⟩
                · intro f hf
                  rw [hh] at hf
                  obtain rfl := (PyRet.dict.inj hf).symm
                  simp [hw0]
                · intro l hf
                  rw [hh] at hf
                  exact absurd hf (by simp)
                · intro s hf
                  rw [hh] at hf
                  exact absurd hf (by simp)
              | list l0 =>
                simp only [hh] at h ⊢
                obtain ⟨⟨hi, hp⟩, hinv0⟩ := by simpa using h
                subst hi
                subst hp
                have hw0 := handleLoop_writes_nil api verb pp eps rp b hd rest hinv0
                refine ⟨?_, ?_, ?_⟩
                · intro f hf
                  rw [hh] at hf
                  exact absurd hf (by simp)
                · intro l hf
                  rw [hh] at hf
                  obtain rfl := (PyRet.list.inj hf).symm
                  simp [hw0]
                · intro s hf
                  rw [hh] at hf
                  exact absurd hf (by simp)
              | str s0 =>
                simp only [hh] at h ⊢
                obtain ⟨hi, hp⟩ := by simpa using h
                subst hi
                subst hp
                refine ⟨?_, ?_, ?_⟩
                · intro f hf
                  rw [hh] at hf
                  exact absurd hf (by simp)
                · intro l hf
                  rw [hh] at hf
                  exact absurd hf (by simp)
                · intro s hf
                  exact ⟨trivial, trivial⟩
          · rw [handleLoop_cons_skip_arity api verb pp eps rp b hd i0 mi rest cp hv hgp
              hep.symm har] at h ⊢
            exact ih i p h
        · rw [handleLoop_cons_skip_endpoint api verb pp eps rp b hd i0 mi rest cp hv hgp
            hep] at h ⊢
          exact ih i p h
    · rw [handleLoop_cons_skip_verb api verb pp eps rp b hd i0 mi rest hv] at h ⊢
      exact ih i p h

/-- C4: return-value normalization.  Whenever a dispatched request invokes
exactly one handler method (with extracted arguments `p`), a mapping-type
return is written directly as the response body, a sequence-type return is
written wrapped as the `items` object, and any other return shape (a plain
string) writes nothing and fails with `InternalError` HTTP 500, message
"Response is not a json document". -/
theorem c4_return_normalization (api : ApiInfo) (funcs : List MethodInfo) (verb : String)
    (reqPath : List Char) (bodyOk : Bool) (handler : Nat → List (List Char) → PyRet)
    (i : Nat) (p : List (List Char))
    (hinv : (handle api funcs verb reqPath bodyOk handler).invoked = [(i, p)]) :
    (∀ f, handler i p = .dict f →
      (handle api funcs verb reqPath bodyOk handler).writes = [.obj f]) ∧
    (∀ l, handler i p = .list l →
      (handle api funcs verb reqPath bodyOk handler).writes = [.itemsWrap l]) ∧
    (∀ s, handler i p = .str s →
      (handle api funcs verb reqPath bodyOk handler).writes = [] ∧
      (handle api funcs verb reqPath bodyOk handler).error =
        some (.httpError 500 (some "Response is not a json document"))) := by
  by_cases hm : verb ∈ funcs.map (fun f => f.http_method)
  · have hh : handle api funcs verb reqPath bodyOk handler =
        handleLoop api verb (splitOnSlash reqPath)
          ((splitOnSlash reqPath).filter (fun x => !(x == []))) reqPath bodyOk handler
          funcs.enum := by
      simp only [handle]
      rw [if_pos hm]
    rw [hh] at hinv ⊢
    exact handleLoop_unique_invoke api verb _ _ reqPath bodyOk handler funcs.enum i p hinv
  · have hh : handle api funcs verb reqPath bodyOk handler =
        ⟨[], [], some (.httpError 405 none)⟩ := by
      simp only [handle]
      rw [if_neg hm]
    rw [hh] at hinv
    simp at hinv

/-- C4 witness (scenario E): the demo route invoked with a handler that
returns a plain string yields HTTP 500 "Response is not a json document"
and no response body. -/
theorem c4_return_normalization_witness :
    (handle demoApi [demoMi] "GET" "/atl/v1/epg/check/42/app/7".toList true
      strHandler).writes = [] ∧
    (handle demoApi [demoMi] "GET" "/atl/v1/epg/check/42/app/7".toList true
      strHandler).error = some (.httpError 500 (some "Response is not a json document")) :=
  (c4_return_normalization demoApi [demoMi] "GET" "/atl/v1/epg/check/42/app/7".toList
    true strHandler 0 ["42".toList, "7".toList] (by decide)).2.2 "oops".toList (by decide)

theorem handleLoop_error_400 (api : ApiInfo) (verb : String)
    (pp eps : List (List Char)) (rp : List Char)
    (hd : Nat → List (List Char) → PyRet) :
    ∀ (L : List (Nat × MethodInfo)) (b : Bool) (m : Option String),
      (handleLoop api verb pp eps rp b hd L).error = some (.httpError 400 m) →
      m = some "Invalid JSON" ∧ b = false ∧ (verb = "POST" ∨ verb = "PUT") := by
  intro L
  induction L with
  | nil => intro b m h; simp [handleLoop] at h
  | cons im rest ih =>
    obtain ⟨i0, mi⟩ := im
    intro b m h
    by_cases hv : mi.http_method = verb
    · cases hgp : get_path api mi with
      | error e =>
        rw [handleLoop_cons_config api verb pp eps rp b hd i0 mi rest e hv hgp] at h
        simp at h
      | ok cp =>
        by_cases hep : reFindallAfter '/' cp =
            (reFindallAfter '/' cp).filter (fun x => decide (x ∈ pp))
        · by_cases har : (reFindallAfter lbrace cp).length +
              (reFindallAfter '/' cp).length = eps.length
          · by_cases hA : (mi.http_method = "POST" ∨ mi.http_method = "PUT") ∧
                mi.content_type = "application/json"
            · cases b with
              | false =>
                rw [handleLoop_cons_badbody api verb pp eps rp hd i0 mi rest cp hv hgp
                  hep.symm har hA] at h
                simp at h
                refine ⟨h.symm, rfl, ?_⟩
                rcases hA.1 with hpost | hput
                · exact Or.inl (hv.symm.trans hpost)
                · exact Or.inr (hv.symm.trans hput)
              | true =>
                rw [handleLoop_cons_invoke api verb pp eps rp true hd i0 mi rest cp hv hgp
                  hep.symm har (fun _ => rfl)] at h
                cases hh : hd i0 (find_params_value_of_url (reFindallAfter '/' cp) rp) with
                | dict f0 =>
                  simp only [hh] at h
                  exact ih true m h
                | list l0 =>
                  simp only [hh] at h
                  exact ih true m h
                | str s0 =>
                  simp only [hh] at h
                  simp at h
            · rw [handleLoop_cons_invoke api verb pp eps rp b hd i0 mi rest cp hv hgp
                hep.symm har (fun hA2 => absurd hA2 hA)] at h
              cases hh : hd i0 (find_params_value_of_url (reFindallAfter '/' cp) rp) with
              | dict f0 =>
                simp only [hh] at h
                exact ih b m h
              | list l0 =>
                simp only [hh] at h
                exact ih b m h
              | str s0 =>
                simp only [hh] at h
                simp at h
          · rw [handleLoop_cons_skip_arity api verb pp eps rp b hd i0 mi rest cp hv hgp
              hep.symm har] at h
            exact ih b m h
        · rw [handleLoop_cons_skip_endpoint api verb pp eps rp b hd i0 mi rest cp hv hgp
            hep] at h
          exact ih b m h
    · rw [handleLoop_cons_skip_verb api verb pp eps rp b hd i0 mi rest hv] at h
      exact ih b m h

theorem handleLoop_body_independent (api : ApiInfo) (verb : String)
    (pp eps : List (List Char)) (rp : List Char)
    (hd : Nat → List (List Char) → PyRet) :
    ∀ (L : List (Nat × MethodInfo)),
      (∀ j mj, (j, mj) ∈ L → mj.http_method = verb →
        ¬((mj.http_method = "POST" ∨ mj.http_method = "PUT") ∧
          mj.content_type = "application/json")) →
      ∀ b, handleLoop api verb pp eps rp b hd L =
        handleLoop api verb pp eps rp true hd L := by
  intro L
  induction L with
  | nil => intro _ b; rfl
  | cons im rest ih =>
    obtain ⟨i0, mi⟩ := im
    intro hyp b
    have hyp2 : ∀ j mj, (j, mj) ∈ rest → mj.http_method = verb →
        ¬((mj.http_method = "POST" ∨ mj.http_method = "PUT") ∧
          mj.content_type = "application/json") :=
      fun j mj hmem => hyp j mj (List.mem_cons.mpr (Or.inr hmem))
    by_cases hv : mi.http_method = verb
    · cases hgp : get_path api mi with
      | error e =>
        rw [handleLoop_cons_config api verb pp eps rp b hd i0 mi rest e hv hgp,
          handleLoop_cons_config api verb pp eps rp true hd i0 mi rest e hv hgp]
      | ok cp =>
        by_cases hep : reFindallAfter '/' cp =
            (reFindallAfter '/' cp).filter (fun x => decide (x ∈ pp))
        · by_cases har : (reFindallAfter lbrace cp).length +
              (reFindallAfter '/' cp).length = eps.length
          · have hA := hyp i0 mi (List.mem_cons_self _ _) hv
            rw [handleLoop_cons_invoke api verb pp eps rp b hd i0 mi rest cp hv hgp
              hep.symm har (fun hA2 => absurd hA2 hA),
              handleLoop_cons_invoke api verb pp eps rp true hd i0 mi rest cp hv hgp
              hep.symm har (fun hA2 => absurd hA2 hA)]
            cases hh : hd i0 (find_params_value_of_url (reFindallAfter '/' cp) rp) with
            | dict f0 => simp only [hh]; rw [ih hyp2 b]
            | list l0 => simp only [hh]; rw [ih hyp2 b]
            | str s0 => simp only [hh]
          · rw [handleLoop_cons_skip_arity api verb pp eps rp b hd i0 mi rest cp hv hgp
              hep.symm har,
              handleLoop_cons_skip_arity api verb pp eps rp true hd i0 mi rest cp hv hgp
              hep.symm har]
            exact ih hyp2 b
        · rw [handleLoop_cons_skip_endpoint api verb pp eps rp b hd i0 mi rest cp hv hgp
            hep,
            handleLoop_cons_skip_endpoint api verb pp eps rp true hd i0 mi rest cp hv hgp
            hep]
          exact ih hyp2 b
    · rw [handleLoop_cons_skip_verb api verb pp eps rp b hd i0 mi rest hv,
        handleLoop_cons_skip_verb api verb pp eps rp true hd i0 mi rest hv]
      exact ih hyp2 b

theorem handleLoop_first_match_400 (api : ApiInfo) (verb : String)
    (pp eps : List (List Char)) (rp : List Char)
    (hd : Nat → List (List Char) → PyRet) :
    ∀ (L : List (Nat × MethodInfo)) (i : Nat) (p : List (List Char)),
      (handleLoop api verb pp eps rp true hd L).invoked.head? = some (i, p) →
      ∃ mi2, (i, mi2) ∈ L ∧
        (((mi2.http_method = "POST" ∨ mi2.http_method = "PUT") ∧
          mi2.content_type = "application/json") →
          handleLoop api verb pp eps rp false hd L =
            ⟨[], [], some (.httpError 400 (some "Invalid JSON"))⟩) := by
  intro L
  induction L with
  | nil => intro i p h; simp [handleLoop] at h
  | cons im rest ih =>
    obtain ⟨i0, mi⟩ := im
    intro i p h
    by_cases hv : mi.http_method = verb
    · cases hgp : get_path api mi with
      | error e =>
        rw [handleLoop_cons_config api verb pp eps rp true hd i0 mi rest e hv hgp] at h
        simp at h
      | ok cp =>
        by_cases hep : reFindallAfter '/' cp =
            (reFindallAfter '/' cp).filter (fun x => decide (x ∈ pp))
        · by_cases har : (reFindallAfter lbrace cp).length +
              (reFindallAfter '/' cp).length = eps.length
          · rw [handleLoop_cons_invoke api verb pp eps rp true hd i0 mi rest cp hv hgp
              hep.symm har (fun _ => rfl)] at h
            have hkey : i0 = i := by
              cases hh : hd i0 (find_params_value_of_url (reFindallAfter '/' cp) rp) with
              | dict f0 =>
                simp only [hh] at h
                simp at h
                exact h.1
              | list l0 =>
                simp only [hh] at h
                simp at h
                exact h.1
              | str s0 =>
                simp only [hh] at h
                simp at h
                exact h.1
            subst hkey
            refine ⟨mi, List.mem_cons_self _ _, fun hA => ?_⟩
            exact handleLoop_cons_badbody api verb pp eps rp hd i0 mi rest cp hv hgp
              hep.symm har hA
          · rw [handleLoop_cons_skip_arity api verb pp eps rp true hd i0 mi rest cp hv hgp
              hep.symm har] at h
            obtain ⟨mi2, hmem, himpl⟩ := ih i p h
            refine ⟨mi2, List.mem_cons.mpr (Or.inr hmem), fun hA => ?_⟩
            rw [handleLoop_cons_skip_arity api verb pp eps rp false hd i0 mi rest cp hv hgp
              hep.symm har]
            exact himpl hA
        · rw [handleLoop_cons_skip_endpoint api verb pp eps rp true hd i0 mi rest cp hv
            hgp hep] at h
          obtain ⟨mi2, hmem, himpl⟩ := ih i p h
          refine ⟨mi2, List.mem_cons.mpr (Or.inr hmem), fun hA => ?_⟩
          rw [handleLoop_cons_skip_endpoint api verb pp eps rp false hd i0 mi rest cp hv
            hgp hep]
          exact himpl hA
    · rw [handleLoop_cons_skip_verb api verb pp eps rp true hd i0 mi rest hv] at h
      obtain ⟨mi2, hmem, himpl⟩ := ih i p h
      refine ⟨mi2, List.mem_cons.mpr (Or.inr hmem), fun hA => ?_⟩
      rw [handleLoop_cons_skip_verb api verb pp eps rp false hd i0 mi rest hv]
      exact himpl hA

/-- C7: body parsing.  HTTP 400 can only arise, with message
"Invalid JSON", from a failed body parse (`bodyOk = false`) on a request
whose verb is POST or PUT; when the verb is neither POST nor PUT, or no
registered method has JSON content type, the outcome does not depend on the
body at all (the body is never parsed); and when the first dispatched
candidate is a JSON POST/PUT method, an unparsable body makes the request
fail with exactly HTTP 400 "Invalid JSON" before any handler invocation. -/
theorem c7_body_parsing (api : ApiInfo) (funcs : List MethodInfo) (verb : String)
    (reqPath : List Char) (handler : Nat → List (List Char) → PyRet) :
    (∀ (b : Bool) (m : Option String),
      (handle api funcs verb reqPath b handler).error = some (.httpError 400 m) →
      m = some "Invalid JSON" ∧ b = false ∧ (verb = "POST" ∨ verb = "PUT")) ∧
    ((verb ≠ "POST" ∧ verb ≠ "PUT") → ∀ b,
      handle api funcs verb reqPath b handler =
        handle api funcs verb reqPath true handler) ∧
    ((∀ mi ∈ funcs, mi.content_type ≠ "application/json") → ∀ b,
      handle api funcs verb reqPath b handler =
        handle api funcs verb reqPath true handler) ∧
    (∀ (i : Nat) (p : List (List Char)) (mi : MethodInfo),
      (handle api funcs verb reqPath true handler).invoked.head? = some (i, p) →
      funcs.get? i = some mi →
      (mi.http_method = "POST" ∨ mi.http_method = "PUT") →
      mi.content_type = "application/json" →
      handle api funcs verb reqPath false handler =
        ⟨[], [], some (.httpError 400 (some "Invalid JSON"))⟩) := by
  by_cases hm : verb ∈ funcs.map (fun f => f.http_method)
  · have hh : ∀ b, handle api funcs verb reqPath b handler =
        handleLoop api verb (splitOnSlash reqPath)
          ((splitOnSlash reqPath).filter (fun x => !(x == []))) reqPath b handler
          funcs.enum := by
      intro b
      simp only [handle]
      rw [if_pos hm]
    refine ⟨?_, ?_, ?_, ?_⟩
    · intro b m herr
      rw [hh b] at herr
      exact handleLoop_error_400 api verb _ _ reqPath handler funcs.enum b m herr
    · intro hvb b
      rw [hh b, hh true]
      apply handleLoop_body_independent
      intro j mj _ hveq hA
      rcases hA.1 with hpost | hput
      · exact hvb.1 (hveq.symm.trans hpost)
      · exact hvb.2 (hveq.symm.trans hput)
    · intro hct b
      rw [hh b, hh true]
      apply handleLoop_body_independent
      intro j mj hmem _ hA
      have hget : funcs.get? j = some mj := List.mk_mem_enum_iff_get?.mp hmem
      exact hct mj (List.get?_mem hget) hA.2
    · intro i p mi hhead hget hPU hct
      rw [hh true] at hhead
      obtain ⟨mi2, hmem, himpl⟩ := handleLoop_first_match_400 api verb _ _ reqPath
        handler funcs.enum i p hhead
      have hget2 : funcs.get? i = some mi2 := List.mk_mem_enum_iff_get?.mp hmem
      have hmi : mi2 = mi := by
        rw [hget] at hget2
        exact (Option.some.inj hget2).symm
      subst hmi
      rw [hh false]
      exact himpl ⟨hPU, hct⟩
  · have hh : ∀ b, handle api funcs verb reqPath b handler =
        ⟨[], [], some (.httpError 405 none)⟩ := by
      intro b
      simp only [handle]
      rw [if_neg hm]
    refine ⟨?_, ?_, ?_, ?_⟩
    · intro b m herr
      rw [hh b] at herr
      simp at herr
    · intro _ b
      rw [hh b, hh true]
    · intro _ b
      rw [hh b, hh true]
    · intro i p mi hhead
      rw [hh true] at hhead
      simp at hhead

/-- C7 witness (scenario D): a POST method with the default JSON content
type receiving an unparsable body fails with HTTP 400 "Invalid JSON";
the witness instantiates the first-match conjunct at the demo API with a
single POST method. -/
theorem c7_body_parsing_witness :
    handle demoApi [postMi] "POST" "/atl/v1/epg/checks".toList false demoHandler =
      ⟨[], [], some (.httpError 400 (some "Invalid JSON"))⟩ :=
  (c7_body_parsing demoApi [postMi] "POST" "/atl/v1/epg/checks".toList
    demoHandler).2.2.2 0 [] postMi (by decide) (by decide) (by decide) (by decide)

/-- C2 (code defect, scenario C): for the demo class, the request
`GET /atl/v1/epg/check/42` (missing final segment) matches no Method
Descriptor, and dispatch completes silently: nothing is invoked, nothing is
written, and no `HTTPError` — in particular no 404 — is raised.  The spec
mandates `NotFound` here and itself flags the source's silent fall-through
as a defect to fix. -/
theorem c2_no_match_silent :
    handle demoApi [demoMi] "GET" "/atl/v1/epg/check/42".toList true demoHandler =
      ⟨[], [], none⟩ := by
  decide

/-- C5 (code defect): with two GET descriptors `{x}` and `{y}` that both
structurally match the request `GET /atl/v1/val`, the dispatch loop — which
has no `break` — invokes BOTH handler methods and writes both responses;
the claim that only the first candidate in iteration order is invoked is
violated by the source. -/
theorem c5_both_candidates_invoked :
    handle c5api [c5miX, c5miY] "GET" "/atl/v1/val".toList true (fun _ _ => .dict []) =
      ⟨[(0, ["val".toList]), (1, ["val".toList])], [.obj [], .obj []], none⟩ := by
  decide

/-- C1 counterexample: the original round-trip claim fails when a
substituted value collides with a fixed endpoint token.  For the template
`check/{id}` under the demo API, substituting the value `check` produces
the request `GET /atl/v1/epg/check/check`; dispatch does resolve to the
originating descriptor but extracts `[]` instead of `["check"]` — the
value is swallowed by the membership-based extraction. -/
theorem c1_counterexample :
    (handle demoApi [c1cexMi] "GET"
      (requestPath demoApi [SegT.lit "check".toList, SegT.par "id".toList]
        ["check".toList]) true demoHandler).invoked = [(0, [])] ∧
    (handle demoApi [c1cexMi] "GET"
      (requestPath demoApi [SegT.lit "check".toList, SegT.par "id".toList]
        ["check".toList]) true demoHandler).invoked ≠ [(0, ["check".toList])] := by
  constructor
  · decide
  · decide

/-- C1 witness (scenario A): for the demo method
`GET check/{check_id}/app/{id}` and substituted values `42`, `7`, dispatch
invokes exactly the originating descriptor with positional arguments
`["42", "7"]`. -/
theorem c1_round_trip_dispatch_witness :
    (handle demoApi [demoMi] "GET"
      (requestPath demoApi demoTmpl ["42".toList, "7".toList]) true
      demoHandler).invoked = [(0, ["42".toList, "7".toList])] :=
  c1_round_trip_dispatch demoApi demoTmpl ["42".toList, "7".toList] "GET"
    "application/json" true demoHandler ⟨by decide, by decide⟩ ⟨by decide, by decide⟩
    (fun p hp => by
      have hpe : "epg".toList = p := Option.some.inj hp
      exact hpe ▸ ⟨by decide, by decide⟩)
    (by
      intro t ht
      fin_cases ht <;> exact ⟨by decide, by decide⟩)
    (by decide) (by decide) (by decide) (fun h _ => by rcases h with h | h <;> simp at h)

/-- C3 counterexample: the malformed template `check/{check_id/app/{a-b}`
— an unbalanced opening brace and a closed pair whose interior `a-b` is not
an identifier — compiles WITHOUT any `ConfigurationError`: the segment
`{check_id` contains no closing brace and is never validated, and `{a-b}`
is accepted by the source's `^{[^{}]+}$` check. -/
theorem c3_counterexample :
    get_path demoApi c3badMi =
      .ok "/atl/v1/epg/check/\x7bcheck_id/app/\x7ba-b\x7d".toList := by
  rfl

theorem full_eq_spec (api : ApiInfo) (mi : MethodInfo) :
    '/' :: (api.name ++ '/' :: (api.version ++ '/' ::
      ((match api.path with
        | none => ([] : List Char)
        | some p =>
          if p == [] then [] else if p.getLast? == some '/' then p else p ++ ['/']) ++
        (if mi.path.head? == some '/' then mi.path.tail else mi.path)))) =
    specCompiledPath api mi := by
  simp only [specCompiledPath]
  cases hap : api.path with
  | none =>
    by_cases hh : mi.path.head? = some '/' <;> simp [hh, List.append_assoc]
  | some p =>
    by_cases hp0 : p = []
    · by_cases hh : mi.path.head? = some '/' <;> simp [hp0, hh, List.append_assoc]
    · by_cases hpl : p.getLast? = some '/'
      · by_cases hh : mi.path.head? = some '/' <;> simp [hp0, hpl, hh, List.append_assoc]
      · by_cases hh : mi.path.head? = some '/' <;> simp [hp0, hpl, hh, List.append_assoc]

theorem get_path_spec_form (api : ApiInfo) (mi : MethodInfo) :
    get_path api mi =
      (match (splitOnSlash (specCompiledPath api mi)).find?
          (fun part => needsCheck part && !bracePat part) with
       | some part => Except.error (part, specCompiledPath api mi)
       | none => Except.ok (specCompiledPath api mi)) := by
  simp only [get_path]
  rw [full_eq_spec]

/-- C8: for every API descriptor, class routing info and Method Descriptor
whose compiled path passes validation, the compiled path equals the spec's
concatenation `/{api_name}/{api_version}/{api_path}{method_path}`, where
`api_path` is the class path normalized to end with `/` (empty when unset,
the source's falsy test also treating an empty class path as unset) and
`method_path` is the method path with one leading `/` stripped. -/
theorem c8_compiled_path_formula (api : ApiInfo) (mi : MethodInfo) (p : List Char)
    (h : get_path api mi = .ok p) : p = specCompiledPath api mi := by
  rw [get_path_spec_form api mi] at h
  cases hf : (splitOnSlash (specCompiledPath api mi)).find?
      (fun part => needsCheck part && !bracePat part) with
  | none =>
    rw [hf] at h
    simp at h
    exact h.symm
  | some part =>
    rw [hf] at h
    simp at h

/-- C8 witness (scenario A metadata): the compiled path of the demo method
equals the spec's concatenation formula. -/
theorem c8_compiled_path_formula_witness :
    "/atl/v1/epg/check/\x7bcheck_id\x7d/app/\x7bid\x7d".toList =
      specCompiledPath demoApi demoMi :=
  c8_compiled_path_formula demoApi demoMi
    "/atl/v1/epg/check/\x7bcheck_id\x7d/app/\x7bid\x7d".toList (by rfl)

theorem braceTail_iff (l : List Char) :
    ∀ seen : Bool, braceTail seen l = true ↔
      ∃ mid, l = mid ++ [rbrace] ∧ (seen = true ∨ mid ≠ []) ∧
        ∀ c ∈ mid, c ≠ lbrace ∧ c ≠ rbrace := by
  induction l with
  | nil =>
    intro seen
    simp [braceTail]
  | cons c rest ih =>
    intro seen
    by_cases hcr : c = rbrace
    · subst hcr
      have hbr : (rbrace == rbrace) = true := by decide
      simp only [braceTail, hbr, if_pos]
      constructor
      · intro h
        simp at h
        refine ⟨[], by simp [h.2], Or.inl h.1, by simp⟩
      · rintro ⟨mid, heq, hcond, hfree⟩
        cases mid with
        | nil =>
          simp at heq
          rcases hcond with hs | hne
          · simp [hs, heq]
          · exact absurd rfl hne
        | cons m ms =>
          simp at heq
          obtain ⟨hm, _⟩ := heq
          exact absurd hm.symm (hfree m (by simp)).2
    · by_cases hcl : c = lbrace
      · subst hcl
        have h1 : (lbrace == rbrace) = false := by decide
        have h2 : (lbrace == lbrace) = true := by decide
        simp only [braceTail, h1, h2, Bool.false_eq_true, if_false, if_pos]
        constructor
        · intro h
          simp at h
        · rintro ⟨mid, heq, _, hfree⟩
          cases mid with
          | nil =>
            simp at heq
            exact absurd heq.1 (by decide)
          | cons m ms =>
            simp at heq
            exact absurd heq.1.symm (hfree m (by simp)).1
      · have h1 : (c == rbrace) = false := by simp [hcr]
        have h2 : (c == lbrace) = false := by simp [hcl]
        simp only [braceTail, h1, h2, Bool.false_eq_true, if_false]
        rw [ih true]
        constructor
        · rintro ⟨mid, heq, _, hfree⟩
          refine ⟨c :: mid, by simp [heq], Or.inr (by simp), ?_⟩
          intro d hd
          rcases List.mem_cons.mp hd with rfl | hd2
          · exact ⟨hcl, hcr⟩
          · exact hfree d hd2
        · rintro ⟨mid, heq, _, hfree⟩
          cases mid with
          | nil =>
            simp at heq
            exact absurd heq.1 hcr
          | cons m ms =>
            simp at heq
            obtain ⟨_, hrest⟩ := heq
            exact ⟨ms, hrest, Or.inl rfl, fun d hd => hfree d (by simp [hd])⟩

theorem bracePat_iff (part : List Char) :
    bracePat part = true ↔
      ∃ mid, part = lbrace :: (mid ++ [rbrace]) ∧ mid ≠ [] ∧
        ∀ c ∈ mid, c ≠ lbrace ∧ c ≠ rbrace := by
  cases part with
  | nil =>
    simp [bracePat]
  | cons c rest =>
    simp only [bracePat, Bool.and_eq_true, beq_iff_eq]
    rw [braceTail_iff rest false]
    constructor
    · rintro ⟨rfl, mid, heq, hcond, hfree⟩
      rcases hcond with hfalse | hne
      · exact absurd hfalse (by decide)
      · exact ⟨mid, by simp [heq], hne, hfree⟩
    · rintro ⟨mid, heq, hne, hfree⟩
      simp at heq
      exact ⟨heq.1, mid, heq.2, Or.inr hne, hfree⟩


theorem contains_eq_false_iff (l : List Char) (a : Char) :
    l.contains a = false ↔ a ∉ l := by
  simp

theorem segCheck_iff (part : List Char) :
    (needsCheck part && !bracePat part) = false ↔ ValidatedSegment part := by
  constructor
  · intro h
    rcases Bool.and_eq_false_iff.mp h with h1 | h2
    · simp only [needsCheck] at h1
      rcases Bool.and_eq_false_iff.mp h1 with h3 | h4
      · rcases Bool.and_eq_false_iff.mp h3 with h5 | h6
        · left
          simpa using h5
        · right; left
          exact (contains_eq_false_iff part lbrace).mp h6
      · right; right; left
        exact (contains_eq_false_iff part rbrace).mp h4
    · right; right; right
      have hb : bracePat part = true := by simpa using h2
      exact (bracePat_iff part).mp hb
  · intro h
    rcases h with h1 | h2 | h3 | h4
    · subst h1
      rfl
    · apply Bool.and_eq_false_iff.mpr
      left
      simp only [needsCheck]
      apply Bool.and_eq_false_iff.mpr
      left
      apply Bool.and_eq_false_iff.mpr
      right
      exact (contains_eq_false_iff part lbrace).mpr h2
    · apply Bool.and_eq_false_iff.mpr
      left
      simp only [needsCheck]
      apply Bool.and_eq_false_iff.mpr
      right
      exact (contains_eq_false_iff part rbrace).mpr h3
    · apply Bool.and_eq_false_iff.mpr
      right
      simpa using (bracePat_iff part).mpr h4

/-- C3 (amended): path-template compilation succeeds without a
`ConfigurationError` exactly when every `/`-separated segment of the
compiled path is a validated segment in the source's sense: empty, missing
one of the two braces (so never checked — an unbalanced single brace passes
through unvalidated), or consisting of exactly one brace pair spanning the
whole segment with a non-empty brace-free interior (the source's
`^{[^{}]+}$`, which accepts any non-brace characters, not only
identifiers). -/
theorem c3_validation_characterization (api : ApiInfo) (mi : MethodInfo) :
    (∃ p, get_path api mi = Except.ok p) ↔
      ∀ part ∈ splitOnSlash (specCompiledPath api mi), ValidatedSegment part := by
  simp only [get_path_spec_form api mi]
  cases hf : (splitOnSlash (specCompiledPath api mi)).find?
      (fun part => needsCheck part && !bracePat part) with
  | none =>
    simp only [hf]
    constructor
    · intro _ part hpart
      have hp := List.find?_eq_none.mp hf part hpart
      exact (segCheck_iff part).mp (by simpa using hp)
    · intro _
      exact ⟨_, rfl⟩
  | some q =>
    simp only [hf]
    constructor
    · rintro ⟨p, hp⟩
      simp at hp
    · intro hall
      exfalso
      have hpred := List.find?_some hf
      have hqmem := List.mem_of_find?_eq_some hf
      have hfalse := (segCheck_iff q).mpr (hall q hqmem)
      rw [hfalse] at hpred
      simp at hpred

theorem subPh_lit (s r : List Char) (hs : ∀ c ∈ s, isW c = true) :
    subPhGo (.norm false) (s ++ r) = s ++ subPhGo (.norm false) r := by
  induction s with
  | nil => rfl
  | cons c s ih =>
    have hc : (c == lbrace) = false := isW_ne c lbrace (hs c (by simp)) isW_lbrace
    simp only [List.cons_append, subPhGo, Bool.false_and, Bool.false_eq_true, if_false, hc,
      List.append_eq]
    rw [ih (fun d hd => hs d (by simp [hd]))]

theorem subPh_skip_run (p r : List Char) (hp : ∀ c ∈ p, isW c = true) :
    subPhGo .skipping (p ++ (rbrace :: r)) = subPhGo (.norm false) r := by
  induction p with
  | nil =>
    have hrb : (rbrace == lbrace) = false := by decide
    simp [subPhGo, isW_rbrace, hrb]
  | cons c p ih =>
    have hc : isW c = true := hp c (by simp)
    simp only [List.cons_append, subPhGo, hc, if_pos]
    exact ih (fun d hd => hp d (by simp [hd]))

theorem subPh_par (c : Char) (p2 r : List Char) (hc : isW c = true)
    (hp : ∀ d ∈ p2, isW d = true) :
    subPhGo (.norm true) ((c :: p2) ++ (rbrace :: r)) =
      '.' :: '*' :: subPhGo (.norm false) r := by
  have hdrop : ((p2 ++ (rbrace :: r)).dropWhile isW) = rbrace :: r := by
    rw [List.dropWhile_append_of_pos (by simpa using hp)]
    simp [List.dropWhile, isW_rbrace]
  have hhead : (((p2 ++ (rbrace :: r)).dropWhile isW).head? == some rbrace) = true := by
    rw [hdrop]
    simp
  have hstep : subPhGo (.norm true) ((c :: p2) ++ (rbrace :: r)) =
      '.' :: '*' :: subPhGo .skipping (p2 ++ (rbrace :: r)) := by
    simp [subPhGo, hc, hhead]
  rw [hstep, subPh_skip_run p2 r hp]

theorem subPh_path (tl : List SegT) (h : ∀ t ∈ tl, WFseg t) :
    subPhGo (.norm false) (pathOfSegs (tl.map segStr)) =
      pathOfSegs (tl.map (fun t => match t with
        | SegT.lit s => s
        | SegT.par _ => [lbrace, '.', '*'])) := by
  induction tl with
  | nil => rfl
  | cons t ts ih =>
    have ih2 := ih (fun x hx => h x (by simp [hx]))
    have ht := h t (by simp)
    cases t with
    | lit s =>
      simp only [List.map_cons, pathOfSegs_cons, segStr]
      rw [show ∀ y, subPhGo (.norm false) ('/' :: y) = '/' :: subPhGo (.norm false) y
        from fun y => rfl]
      rw [subPh_lit s _ ht.2, ih2]
    | par p =>
      obtain ⟨c, p2, rfl⟩ : ∃ c p2, p = c :: p2 := by
        cases p with
        | nil => exact absurd rfl ht.1
        | cons c p2 => exact ⟨c, p2, rfl⟩
      simp only [List.map_cons, pathOfSegs_cons, segStr]
      rw [show ∀ y, subPhGo (.norm false) ('/' :: y) = '/' :: subPhGo (.norm false) y
        from fun y => rfl]
      have hstep : (lbrace :: ((c :: p2) ++ [rbrace])) ++ pathOfSegs (ts.map segStr) =
          lbrace :: ((c :: p2) ++ (rbrace :: pathOfSegs (ts.map segStr))) := by
        simp
      rw [hstep]
      rw [show ∀ y, subPhGo (.norm false) (lbrace :: y) =
          lbrace :: subPhGo (.norm true) y from fun y => rfl]
      rw [subPh_par c p2 _ (ht.2 c (by simp)) (fun d hd => ht.2 d (by simp [hd]))]
      rw [ih2]
      simp

theorem filter_pathOfSegs (q : Char → Bool) (segs : List (List Char))
    (hq : q '/' = true) :
    (pathOfSegs segs).filter q = pathOfSegs (segs.map (fun s => s.filter q)) := by
  induction segs with
  | nil => rfl
  | cons s rest ih =>
    simp only [pathOfSegs, List.foldr, List.map_cons] at ih ⊢
    rw [List.filter_cons]
    simp only [hq, if_pos]
    rw [List.filter_append, ih]

theorem mem_pathOfSegs (c : Char) (segs : List (List Char))
    (hc : c ∈ pathOfSegs segs) : c = '/' ∨ ∃ s ∈ segs, c ∈ s := by
  induction segs with
  | nil => simp [pathOfSegs] at hc
  | cons s rest ih =>
    simp only [pathOfSegs, List.foldr] at hc ih
    rcases List.mem_cons.mp hc with rfl | hc2
    · exact Or.inl rfl
    · rcases List.mem_append.mp hc2 with hs | hr
      · exact Or.inr ⟨s, by simp, hs⟩
      · rcases ih hr with h1 | ⟨s2, hs2, hcs2⟩
        · exact Or.inl h1
        · exact Or.inr ⟨s2, by simp [hs2], hcs2⟩

theorem subLt_id (l : List Char) (h : ∀ c ∈ l, (c == '<') = false) :
    subLtGo (.lnorm false) l = l := by
  induction l with
  | nil => rfl
  | cons c rest ih =>
    have hc : (c == '<') = false := h c (by simp)
    simp only [subLtGo, Bool.false_and, Bool.false_eq_true, if_false, hc]
    rw [ih (fun d hd => h d (by simp [hd]))]

/-- C9 (amended): in every listener pattern built from a well-formed
compiled path, each `{token}` placeholder segment is rewritten to the
unbounded wildcard `.*` — which, as a regular expression, matches any text
in that position, including text spanning `/` separators (see the
counterexample) — and all non-placeholder characters of the compiled path
are preserved verbatim. -/
theorem c9_pattern_rewrite (tl : List SegT) (h : ∀ t ∈ tl, WFseg t) :
    toPattern (pathOfSegs (tl.map segStr)) = pathOfSegs (tl.map patSeg) := by
  simp only [toPattern]
  rw [subPh_path tl h]
  rw [filter_pathOfSegs (fun c => !(c == lbrace)) _ (by decide)]
  have hmap : (tl.map (fun t => match t with
      | SegT.lit s => s
      | SegT.par _ => [lbrace, '.', '*'])).map
        (fun s => s.filter (fun c => !(c == lbrace))) = tl.map patSeg := by
    rw [List.map_map]
    apply List.map_eq_map_iff.mpr
    intro t ht
    cases t with
    | lit s =>
      have hw := (h _ ht).2
      simp only [Function.comp, patSeg]
      apply List.filter_eq_self.mpr
      intro c hc
      simp [isW_ne c lbrace (hw c hc) isW_lbrace]
    | par p =>
      simp only [Function.comp, patSeg]
      rfl
  rw [hmap]
  have hchars : ∀ c ∈ pathOfSegs (tl.map patSeg),
      isW c = true ∨ c = '/' ∨ c = '.' ∨ c = '*' := by
    intro c hc
    rcases mem_pathOfSegs c _ hc with rfl | ⟨s, hs, hcs⟩
    · exact Or.inr (Or.inl rfl)
    · obtain ⟨t, ht, rfl⟩ := List.mem_map.mp hs
      cases t with
      | lit s2 => exact Or.inl ((h _ ht).2 c hcs)
      | par p =>
        simp only [patSeg] at hcs
        rcases List.mem_cons.mp hcs with rfl | hcs2
        · exact Or.inr (Or.inr (Or.inl rfl))
        · have : c = '*' := by simpa using hcs2
          exact Or.inr (Or.inr (Or.inr this))
  rw [subLt_id _ (by
    intro c hc
    rcases hchars c hc with hw | rfl | rfl | rfl
    · exact isW_ne c '<' hw (by decide)
    · decide
    · decide
    · decide)]
  apply List.filter_eq_self.mpr
  intro c hc
  rcases hchars c hc with hw | rfl | rfl | rfl
  · have h1 : (c == '<') = false := isW_ne c '<' hw (by decide)
    have h2 : (c == '>') = false := isW_ne c '>' hw (by decide)
    have h3 : (c == '&') = false := isW_ne c '&' hw (by decide)
    have h4 : (c == '?') = false := isW_ne c '?' hw (by decide)
    simp [h1, h2, h3, h4]
  · decide
  · decide
  · decide

/-- C9 counterexample: the listener pattern generated for the demo method
is `/atl/v1/epg/check/.*/app/.*`, and as an anchored regular expression it
DOES match text spanning a `/` separator: the request path
`/atl/v1/epg/check/a/b/app/7` matches, with the first wildcard consuming
`a/b` across a slash — refuting the claim that the wildcard never matches
across `/`. -/
theorem c9_counterexample :
    toPattern "/atl/v1/epg/check/\x7bcheck_id\x7d/app/\x7bid\x7d".toList =
      "/atl/v1/epg/check/.*/app/.*".toList ∧
    reMatch "/atl/v1/epg/check/.*/app/.*".toList
      "/atl/v1/epg/check/a/b/app/7".toList = true := by
  exact ⟨by decide, by decide⟩

/-- C9 witness: the rewriting characterization applied to the demo class's
compiled path. -/
theorem c9_pattern_rewrite_witness :
    toPattern (pathOfSegs ((allT demoApi demoTmpl).map segStr)) =
      pathOfSegs ((allT demoApi demoTmpl).map patSeg) :=
  c9_pattern_rewrite (allT demoApi demoTmpl)
    (by intro t ht; fin_cases ht <;> exact ⟨by decide, by decide⟩)

/-- C10 counterexample: a class binding descriptor name `zeta` under
attribute `alpha` and descriptor name `alpha` under attribute `beta` is
enumerated in attribute-name order, yielding descriptor names
`[zeta, alpha]` — not ascending by configured descriptor name, since
`alpha < zeta`.  (`inspect.getmembers` sorts by the attribute name in the
class dictionary; the decorator's `__name__` assignment does not change
that binding.) -/
theorem c10_counterexample :
    (get_resources_functions c10cls).map (fun mi => mi.name) = ["zeta", "alpha"] ∧
    charLeB "alpha".toList "zeta".toList = true ∧
    charLeB "zeta".toList "alpha".toList = false := by
  refine ⟨rfl, by decide, by decide⟩

/-- C10 (amended): the Method Descriptors a handler class exposes are
enumerated in ascending order of the class attribute names their methods
are bound under (`inspect.getmembers` sorts members by attribute name —
not by the descriptor's configured name, which the decorator merely copies
into the wrapper's `__name__`); the enumeration is a permutation of the
class's members, and dispatch candidate order and
`get_rest_resources_paths` follow this enumeration. -/
theorem c10_enumeration_order (cls : HandlerClass) :
    List.Sorted (fun a b : String => charLeB a.toList b.toList = true)
      ((List.insertionSort attrLe cls.attrs).map Prod.fst) ∧
    (List.insertionSort attrLe cls.attrs).Perm cls.attrs ∧
    get_resources_functions cls =
      (List.insertionSort attrLe cls.attrs).filterMap (fun m => m.2) ∧
    get_rest_resources_paths demoApi cls =
      (get_resources_functions cls).map (fun mi => get_path demoApi mi) := by
  refine ⟨?_, List.perm_insertionSort attrLe cls.attrs, rfl, rfl⟩
  have hs := List.sorted_insertionSort attrLe cls.attrs
  exact hs.map Prod.fst (fun a b hab => hab)
